import Mathlib

/-!
# LLL: singly linked list library (`lll.h`)

Shallow embedding of the four insertion procedures of `lll.h` over an explicit
heap.  A pointer (`node_ptr`) is `none` for `NULL` or `some a` for the address
`a`; the heap maps every allocated address to the `struct Node` stored there.
Every C statement that reads or writes through a pointer is a `load` or a
`store`, which faults on `NULL` or on an address that is not allocated.  The
three `while` loops take a fuel argument that bounds the number of times the
loop condition is evaluated.

The result of `malloc` is an input of each procedure (`Malloc`): either `NULL`
or a block at some address with indeterminate contents.

The arithmetic on `index` and `position` in `addNodoInPosition` is done in
`Int`: `position - 1` is only evaluated when `position > 0`, and `index++` only
when `index < position - 1`, so no `int` operation of the loop can overflow.
The counter `int idx` of `LLL_DEBUG_LIST` is a 32-bit `int`: `idx++` is reduced
modulo `2^32` into the range of `int` (`wrapInt`), which is what the increment
computes on two's-complement hardware where C leaves it undefined.

`LLL_DEBUG_LIST(head)` is a text-substitution macro: its argument is an
expression (`PtrExpr`), evaluated inside the macro body, where the macro's own
variable `tmp` is already in scope and not yet initialised.
-/

namespace LLL

/-- The C type `struct Node`: an integer `id` and the `next` pointer. -/
structure Node where
  id : Int
  next : Option Nat
  deriving DecidableEq

/-- The C type `node_ptr` (`struct Node *`): `none` is `NULL`. -/
abbrev node_ptr := Option Nat

/-- The heap: the node stored at every allocated address. -/
abbrev Heap := Nat → Option Node

/-- Ways in which the execution of a procedure can go wrong. -/
inductive Fault where
  | badPointer
  | outOfFuel
  deriving DecidableEq

/-- What `malloc(sizeof(node))` returned: `NULL`, or a block at address `addr`
whose contents `junk` are indeterminate. -/
inductive Malloc where
  | null
  | block (addr : Nat) (junk : Node)
  deriving DecidableEq

/-- The heap with the cell at address `a` replaced by `n`. -/
def update (h : Heap) (a : Nat) (n : Node) : Heap :=
  fun b => if b = a then some n else h b

/-- Read of `*p`. -/
def load (h : Heap) (p : node_ptr) : Except Fault Node :=
  match p with
  | none => .error .badPointer
  | some a =>
    match h a with
    | none => .error .badPointer
    | some n => .ok n

/-- The assignment `p->id = v`. -/
def storeId (h : Heap) (p : node_ptr) (v : Int) : Except Fault Heap :=
  match p with
  | none => .error .badPointer
  | some a =>
    match h a with
    | none => .error .badPointer
    | some n => .ok (update h a { n with id := v })

/-- The assignment `p->next = q`. -/
def storeNext (h : Heap) (p : node_ptr) (q : node_ptr) : Except Fault Heap :=
  match p with
  | none => .error .badPointer
  | some a =>
    match h a with
    | none => .error .badPointer
    | some n => .ok (update h a { n with next := q })

/-- The call `malloc(sizeof(node))` with outcome `m`: the heap after the call
and the pointer returned. -/
def malloc (h : Heap) (m : Malloc) : Heap × node_ptr :=
  match m with
  | .null => (h, none)
  | .block a junk => (update h a junk, some a)

/-- The loop `while (current->next) current = current->next;` of `addNodeTail`;
returns the final value of `current`. -/
def tailLoop : Nat → Heap → node_ptr → Except Fault node_ptr
  | 0, _, _ => .error .outOfFuel
  | fuel + 1, h, current => do
    let c ← load h current
    if c.next.isSome then
      tailLoop fuel h c.next
    else
      pure current

/-- The procedure `addNodeTail(head, number_id)`: final heap and returned pointer. -/
def addNodeTail (fuel : Nat) (h : Heap) (m : Malloc) (head : node_ptr)
    (number_id : Int) : Except Fault (Heap × node_ptr) :=
  let (h, new_node) := malloc h m
  if new_node.isNone then pure (h, none) else do
    let h ← storeId h new_node number_id
    let h ← storeNext h new_node none
    if head.isNone then pure (h, new_node) else do
      let current ← tailLoop fuel h head
      let h ← storeNext h current new_node
      pure (h, head)

/-- The procedure `addNodeHead(head, number_id)`: final heap and returned pointer. -/
def addNodeHead (h : Heap) (m : Malloc) (head : node_ptr)
    (number_id : Int) : Except Fault (Heap × node_ptr) :=
  let (h, new_node) := malloc h m
  if new_node.isNone then pure (h, none) else do
    let h ← storeId h new_node number_id
    let h ← storeNext h new_node head
    pure (h, new_node)

/-- The loop
`while (fast->next && fast->next->next) { slow=slow->next; fast=fast->next->next; }`
of `addNodeMiddle`; returns the final values of `slow` and `fast`. -/
def middleLoop : Nat → Heap → node_ptr → node_ptr → Except Fault (node_ptr × node_ptr)
  | 0, _, _, _ => .error .outOfFuel
  | fuel + 1, h, slow, fast => do
    let f ← load h fast
    if f.next.isSome then
      let f1 ← load h f.next
      if f1.next.isSome then
        let s ← load h slow
        let g ← load h fast
        let g1 ← load h g.next
        middleLoop fuel h s.next g1.next
      else
        pure (slow, fast)
    else
      pure (slow, fast)

/-- The procedure `addNodeMiddle(head, number_id)`: final heap and returned pointer. -/
def addNodeMiddle (fuel : Nat) (h : Heap) (m : Malloc) (head : node_ptr)
    (number_id : Int) : Except Fault (Heap × node_ptr) :=
  let (h, new_node) := malloc h m
  if new_node.isNone then pure (h, none) else do
    let h ← storeId h new_node number_id
    if head.isNone then do
      let h ← storeNext h new_node none
      pure (h, new_node)
    else do
      let (slow, _) ← middleLoop fuel h head head
      let s ← load h slow
      let h ← storeNext h new_node s.next
      let h ← storeNext h slow new_node
      pure (h, head)

/-- The loop
`while (current->next && index < position - 1) { current=current->next; index++; }`
of `addNodoInPosition`; returns the final value of `current`. -/
def positionLoop : Nat → Heap → node_ptr → Int → Int → Except Fault node_ptr
  | 0, _, _, _, _ => .error .outOfFuel
  | fuel + 1, h, current, index, position => do
    let c ← load h current
    if c.next.isSome && decide (index < position - 1) then
      positionLoop fuel h c.next (index + 1) position
    else
      pure current

/-- The procedure `addNodoInPosition(head, number_id, position)`: final heap and
returned pointer. -/
def addNodoInPosition (fuel : Nat) (h : Heap) (m : Malloc) (head : node_ptr)
    (number_id : Int) (position : Int) : Except Fault (Heap × node_ptr) :=
  let (h, new_node) := malloc h m
  if new_node.isNone then pure (h, none) else do
    let h ← storeId h new_node number_id
    let h ← storeNext h new_node none
    if head.isNone || decide (position ≤ 0) then do
      let h ← storeNext h new_node head
      pure (h, new_node)
    else do
      let current ← positionLoop fuel h head 0 position
      let c ← load h current
      let h ← storeNext h new_node c.next
      let h ← storeNext h current new_node
      pure (h, head)

/-- The list held by the heap: `chain h p xs` says that following `next` from
`p` visits nodes carrying exactly the values `xs` and then reaches `NULL`. -/
def chain (h : Heap) : node_ptr → List Int → Bool
  | none, [] => true
  | none, _ :: _ => false
  | some _, [] => false
  | some a, x :: xs =>
    match h a with
    | none => false
    | some n => decide (n.id = x) && chain h n.next xs

/-- The pointer reached from `p` by following `next` exactly `k` times. -/
def advance (h : Heap) : Nat → node_ptr → node_ptr
  | 0, p => p
  | _ + 1, none => none
  | k + 1, some a =>
    match h a with
    | none => none
    | some n => advance h k n.next

/-- The addresses of the first `k` nodes reached from `p`. -/
def addresses (h : Heap) : Nat → node_ptr → List Nat
  | 0, _ => []
  | _ + 1, none => []
  | k + 1, some a =>
    match h a with
    | none => [a]
    | some n => a :: addresses h k n.next

/-- The freshness of a `malloc` result: a returned block is not already allocated. -/
def Malloc.fresh (h : Heap) : Malloc → Prop
  | .null => True
  | .block a _ => h a = none

/-- A small heap holding the list `[10, 20, 30]` at addresses 1, 2, 3. -/
def heap3 : Heap := fun a =>
  if a = 1 then some ⟨10, some 2⟩
  else if a = 2 then some ⟨20, some 3⟩
  else if a = 3 then some ⟨30, none⟩
  else none

/-- The empty heap. -/
def heap0 : Heap := fun _ => none

/-- The heap after a new cell `a` carrying `v` has been linked in after the
cell `c`, whose contents were `nc`. -/
def linkAfter (h : Heap) (a : Nat) (v : Int) (c : Nat) (nc : Node) : Heap :=
  update (update h a ⟨v, nc.next⟩) c ⟨nc.id, some a⟩

/-- The list `xs` with `v` inserted so that it lands at index `i`. -/
def insertAt (xs : List Int) (i : Nat) (v : Int) : List Int :=
  xs.take i ++ v :: xs.drop i


/-- One call of the library: which procedure, with which arguments. -/
inductive Op where
  | tail (number_id : Int)
  | head (number_id : Int)
  | middle (number_id : Int)
  | position (number_id : Int) (position : Int)
  deriving DecidableEq

/-- The value a call inserts. -/
def Op.value : Op → Int
  | .tail v => v
  | .head v => v
  | .middle v => v
  | .position v _ => v

/-- The call `head = op(head, ...)` with `malloc` outcome `m`. -/
def Op.run (fuel : Nat) (h : Heap) (m : Malloc) (head : node_ptr) :
    Op → Except Fault (Heap × node_ptr)
  | .tail v => addNodeTail fuel h m head v
  | .head v => addNodeHead h m head v
  | .middle v => addNodeMiddle fuel h m head v
  | .position v p => addNodoInPosition fuel h m head v p

/-- A caller that performs the calls in order, each time replacing its head
pointer by the pointer returned. -/
def runAll (fuel : Nat) : Heap → node_ptr → List (Op × Malloc) → Except Fault (Heap × node_ptr)
  | h, head, [] => .ok (h, head)
  | h, head, (op, m) :: rest =>
    match op.run fuel h m head with
    | .error e => .error e
    | .ok (h', head') => runAll fuel h' head' rest

/-- The calls of a sequence in which every allocation succeeds: each call comes
with the address and the initial contents of the block `malloc` returns. -/
def successful (calls : List (Op × Nat × Node)) : List (Op × Malloc) :=
  calls.map fun c => (c.1, Malloc.block c.2.1 c.2.2)

/-- A heap holding the one-node list `[10]` at address 1. -/
def heap1 : Heap := fun a => if a = 1 then some ⟨10, none⟩ else none

/-- One piece of the text the debug macros print through `LLL_DEBUG_PRINT`:
`nodeIndex idx` is the line start `Node[idx]: `, `nodeAt addr id next` is the text
`Node at addr -> id: id, next: next`, `nodeIsNull` is `Node is NULL` and
`emptyList` is `Empty list`. -/
inductive Out where
  | nodeIndex (idx : Int)
  | nodeAt (addr : Nat) (id : Int) (next : node_ptr)
  | nodeIsNull
  | emptyList
  deriving DecidableEq

/-- The macro `LLL_DEBUG_NODE(n)`: the text printed so far, extended. -/
def LLL_DEBUG_NODE (h : Heap) (out : List Out) (n : node_ptr) : Except Fault (List Out) :=
  match n with
  | some a => do
    let c ← load h n
    pure (out ++ [.nodeAt a c.id c.next])
  | none => pure (out ++ [.nodeIsNull])

/-- The constant `INT_MAX` of `limits.h` for a 32-bit `int`. -/
def INT_MAX : Int := 2147483647

/-- The value a 32-bit `int` holds when the mathematical result is `i`: `i`
reduced modulo `2^32` into `-2^31 .. 2^31 - 1`. -/
def wrapInt (i : Int) : Int :=
  (i + 2147483648) % 4294967296 - 2147483648

/-- The loop `while(tmp) { ...; tmp=tmp->next; idx++; }` of `LLL_DEBUG_LIST`;
returns the text printed and the final value of `idx`. -/
def debugListLoop : Nat → Heap → List Out → node_ptr → Int → Except Fault (List Out × Int)
  | 0, _, _, _, _ => .error .outOfFuel
  | fuel + 1, h, out, tmp, idx =>
    if tmp.isSome then do
      let out ← LLL_DEBUG_NODE h (out ++ [.nodeIndex idx]) tmp
      let t ← load h tmp
      debugListLoop fuel h out t.next (wrapInt (idx + 1))
    else
      pure (out, idx)

/-- The loop of `addNodeTail`, recording the value of `current` at every
evaluation of the loop condition. -/
def tailTrace : Nat → Heap → node_ptr → Except Fault (List node_ptr)
  | 0, _, _ => .error .outOfFuel
  | fuel + 1, h, current => do
    let c ← load h current
    if c.next.isSome then do
      let rest ← tailTrace fuel h c.next
      pure (current :: rest)
    else
      pure [current]

/-- The loop of `addNodeMiddle`, recording the values of `slow` and `fast` at
every evaluation of the loop condition. -/
def middleTrace : Nat → Heap → node_ptr → node_ptr →
    Except Fault (List (node_ptr × node_ptr))
  | 0, _, _, _ => .error .outOfFuel
  | fuel + 1, h, slow, fast => do
    let f ← load h fast
    if f.next.isSome then
      let f1 ← load h f.next
      if f1.next.isSome then
        let s ← load h slow
        let g ← load h fast
        let g1 ← load h g.next
        let rest ← middleTrace fuel h s.next g1.next
        pure ((slow, fast) :: rest)
      else
        pure [(slow, fast)]
    else
      pure [(slow, fast)]

/-- The loop of `addNodoInPosition`, recording the value of `current` at every
evaluation of the loop condition. -/
def positionTrace : Nat → Heap → node_ptr → Int → Int → Except Fault (List node_ptr)
  | 0, _, _, _, _ => .error .outOfFuel
  | fuel + 1, h, current, index, position => do
    let c ← load h current
    if c.next.isSome && decide (index < position - 1) then do
      let rest ← positionTrace fuel h c.next (index + 1) position
      pure (current :: rest)
    else
      pure [current]

/-- The index at which a call inserts its value into a list of `n` values. -/
def Op.index (n : Nat) : Op → Nat
  | .tail _ => n
  | .head _ => 0
  | .middle _ => if n = 0 then 0 else (n - 1) / 2 + 1
  | .position _ p => if p ≤ 0 then 0 else min n p.toNat

/-- Whether a pointer is the address of an allocated node. -/
def validPtr (h : Heap) (p : node_ptr) : Bool :=
  match p with
  | none => false
  | some a => (h a).isSome

/-! ## The heap and the list it holds -/

theorem update_same (h : Heap) (a : Nat) (n : Node) : update h a n a = some n := by
  simp [update]

theorem update_other (h : Heap) (a b : Nat) (n : Node) (hne : b ≠ a) :
    update h a n b = h b := by
  simp [update, hne]

theorem update_update (h : Heap) (a : Nat) (n n2 : Node) :
    update (update h a n) a n2 = update h a n2 := by
  funext b
  by_cases hb : b = a <;> simp [update, hb]

theorem chain_nil_iff (h : Heap) (p : node_ptr) : chain h p [] = true ↔ p = none := by
  cases p <;> simp [chain]

theorem chain_cons_iff (h : Heap) (p : node_ptr) (x : Int) (xs : List Int) :
    chain h p (x :: xs) = true ↔
      ∃ a nx, p = some a ∧ h a = some ⟨x, nx⟩ ∧ chain h nx xs = true := by
  cases p with
  | none => simp [chain]
  | some a =>
    cases hc : h a with
    | none => simp [chain, hc]
    | some n =>
      obtain ⟨i, nx⟩ := n
      constructor
      · intro hyp
        simp [chain, hc] at hyp
        exact ⟨a, nx, rfl, by rw [hc, hyp.1], hyp.2⟩
      · rintro ⟨b, nb, hb, hcell, hrest⟩
        cases hb
        rw [hc] at hcell
        cases hcell
        simp [chain, hc, hrest]

theorem chain_unique (h : Heap) (xs : List Int) :
    ∀ (p : node_ptr) (ys : List Int), chain h p xs = true → chain h p ys = true → xs = ys := by
  induction xs with
  | nil =>
    intro p ys hx hy
    rw [chain_nil_iff] at hx
    subst hx
    cases ys with
    | nil => rfl
    | cons y ys => simp [chain] at hy
  | cons x xs ih =>
    intro p ys hx hy
    obtain ⟨a, nx, hp, hcell, hrest⟩ := (chain_cons_iff h p x xs).1 hx
    subst hp
    cases ys with
    | nil => simp [chain] at hy
    | cons y ys =>
      obtain ⟨b, nb, hb, hcell2, hrest2⟩ := (chain_cons_iff h (some a) y ys).1 hy
      cases hb
      rw [hcell] at hcell2
      cases hcell2
      rw [ih nx ys hrest hrest2]

theorem chain_update_fresh (h : Heap) (a : Nat) (n : Node) (hfresh : h a = none)
    (xs : List Int) :
    ∀ p : node_ptr, chain h p xs = true → chain (update h a n) p xs = true := by
  induction xs with
  | nil =>
    intro p hx
    rw [chain_nil_iff] at hx ⊢
    exact hx
  | cons x xs ih =>
    intro p hx
    obtain ⟨b, nb, hp, hcell, hrest⟩ := (chain_cons_iff h p x xs).1 hx
    refine (chain_cons_iff _ p x xs).2 ⟨b, nb, hp, ?_, ih nb hrest⟩
    have hne : b ≠ a := by
      intro hba
      rw [hba, hfresh] at hcell
      cases hcell
    rw [update_other h a b n hne]
    exact hcell

theorem chain_advance (h : Heap) (k : Nat) :
    ∀ (p : node_ptr) (xs : List Int), chain h p xs = true →
      chain h (advance h k p) (xs.drop k) = true := by
  induction k with
  | zero =>
    intro p xs hx
    simpa [advance] using hx
  | succ k ih =>
    intro p xs hx
    cases xs with
    | nil =>
      rw [chain_nil_iff] at hx
      subst hx
      simp [advance, chain]
    | cons x xs =>
      obtain ⟨a, nx, hp, hcell, hrest⟩ := (chain_cons_iff h p x xs).1 hx
      subst hp
      simpa [advance, hcell] using ih nx xs hrest

/-- A cell that heads a chain longer than `ys` does not occur in the chain `ys`,
so rewriting it leaves that chain intact. -/
theorem chain_update_off (h : Heap) (c : Nat) (n : Node) (ys : List Int) :
    ∀ q : node_ptr, chain h q ys = true →
      (∀ zs, chain h (some c) zs = true → ys.length < zs.length) →
      chain (update h c n) q ys = true := by
  induction ys with
  | nil =>
    intro q hq _
    rw [chain_nil_iff] at hq ⊢
    exact hq
  | cons y ys ih =>
    intro q hq hlong
    obtain ⟨b, nb, hp, hcell, hrest⟩ := (chain_cons_iff h q y ys).1 hq
    subst hp
    have hne : b ≠ c := by
      intro hbc
      subst hbc
      exact absurd (hlong _ hq) (lt_irrefl _)
    refine (chain_cons_iff _ _ y ys).2 ⟨b, nb, rfl, ?_, ?_⟩
    · rw [update_other h c b n hne]
      exact hcell
    · apply ih nb hrest
      intro zs hzs
      have := hlong zs hzs
      simp only [List.length_cons] at this
      omega

/-- Linking a fresh cell `a` carrying `v` after the node reached in `k` steps
turns the chain `xs` into `xs` with `v` at index `k + 1`. -/
theorem chain_linkAfter (h : Heap) (a : Nat) (v : Int) (hfresh : h a = none) (k : Nat) :
    ∀ (p : node_ptr) (xs : List Int) (c : Nat) (nc : Node),
      chain h p xs = true → k < xs.length → advance h k p = some c → h c = some nc →
      chain (linkAfter h a v c nc) p (insertAt xs (k + 1) v) = true := by
  unfold linkAfter
  induction k with
  | zero =>
    intro p xs c nc hx hk hadv hc
    cases xs with
    | nil => simp at hk
    | cons x xs =>
      obtain ⟨b, nb, hp, hcell, hrest⟩ := (chain_cons_iff h p x xs).1 hx
      subst hp
      simp only [advance] at hadv
      have hbc : b = c := by simpa using hadv
      subst hbc
      rw [hc] at hcell
      cases hcell
      have hne : a ≠ b := by
        intro hab
        rw [hab, hc] at hfresh
        cases hfresh
      simp only [insertAt, List.take_succ_cons, List.take_zero, List.drop_succ_cons,
        List.drop_zero, List.cons_append, List.nil_append]
      refine (chain_cons_iff _ _ _ _).2 ⟨b, some a, rfl, update_same _ _ _, ?_⟩
      refine (chain_cons_iff _ _ _ _).2 ⟨a, nb, rfl, ?_, ?_⟩
      · rw [update_other _ b a _ hne, update_same]
      · apply chain_update_off
        · exact chain_update_fresh h a _ hfresh xs nb hrest
        · intro zs hzs
          have hb : chain (update h a ⟨v, nb⟩) (some b) (x :: xs) = true :=
            chain_update_fresh h a _ hfresh _ _ hx
          have := chain_unique _ _ _ _ hb hzs
          subst this
          simp
  | succ k ih =>
    intro p xs c nc hx hk hadv hc
    cases xs with
    | nil => simp at hk
    | cons x xs =>
      obtain ⟨b, nb, hp, hcell, hrest⟩ := (chain_cons_iff h p x xs).1 hx
      subst hp
      simp only [advance, hcell] at hadv
      simp only [List.length_cons] at hk
      have hk2 : k < xs.length := by omega
      have hrec := ih nb xs c nc hrest hk2 hadv hc
      have hba : b ≠ a := by
        intro hba
        rw [hba, hfresh] at hcell
        cases hcell
      have hbc : b ≠ c := by
        intro hbc
        subst hbc
        have hsuf := chain_advance h k nb xs hrest
        rw [hadv] at hsuf
        have := chain_unique _ _ _ _ hx hsuf
        have hlen := congrArg List.length this
        simp at hlen
        omega
      simp only [insertAt, List.take_succ_cons, List.drop_succ_cons, List.cons_append]
      refine (chain_cons_iff _ _ _ _).2 ⟨b, nb, rfl, ?_, hrec⟩
      rw [update_other _ c b _ hbc, update_other _ a b _ hba]
      exact hcell

theorem advance_update_fresh (h : Heap) (a : Nat) (n : Node) (hfresh : h a = none)
    (k : Nat) :
    ∀ (p : node_ptr) (xs : List Int), chain h p xs = true → k ≤ xs.length →
      advance (update h a n) k p = advance h k p := by
  induction k with
  | zero =>
    intro p xs _ _
    rfl
  | succ k ih =>
    intro p xs hx hk
    cases xs with
    | nil => simp at hk
    | cons x xs =>
      obtain ⟨b, nb, hp, hcell, hrest⟩ := (chain_cons_iff h p x xs).1 hx
      subst hp
      have hne : b ≠ a := by
        intro hba
        rw [hba, hfresh] at hcell
        cases hcell
      simp only [List.length_cons] at hk
      simp only [advance, update_other h a b n hne, hcell]
      exact ih nb xs hrest (by omega)

/-- Inside a chain, `advance` lands on an allocated cell, from which the rest
of the chain continues. -/
theorem advance_cell (h : Heap) (k : Nat) :
    ∀ (p : node_ptr) (xs : List Int), chain h p xs = true → k < xs.length →
      ∃ c nc, advance h k p = some c ∧ h c = some nc ∧
        chain h nc.next (xs.drop (k + 1)) = true := by
  induction k with
  | zero =>
    intro p xs hx hk
    cases xs with
    | nil => simp at hk
    | cons x xs =>
      obtain ⟨b, nb, hp, hcell, hrest⟩ := (chain_cons_iff h p x xs).1 hx
      subst hp
      exact ⟨b, ⟨x, nb⟩, rfl, hcell, by simpa using hrest⟩
  | succ k ih =>
    intro p xs hx hk
    cases xs with
    | nil => simp at hk
    | cons x xs =>
      obtain ⟨b, nb, hp, hcell, hrest⟩ := (chain_cons_iff h p x xs).1 hx
      subst hp
      simp only [List.length_cons] at hk
      obtain ⟨c, nc, hadv, hc, hsuf⟩ := ih nb xs hrest (by omega)
      refine ⟨c, nc, ?_, hc, by simpa using hsuf⟩
      simp only [advance, hcell]
      exact hadv

theorem load_cell (h : Heap) (a : Nat) (n : Node) (hc : h a = some n) :
    load h (some a) = .ok n := by
  simp [load, hc]

theorem storeId_cell (h : Heap) (a : Nat) (n : Node) (v : Int) (hc : h a = some n) :
    storeId h (some a) v = .ok (update h a ⟨v, n.next⟩) := by
  simp [storeId, hc]

theorem storeNext_cell (h : Heap) (a : Nat) (n : Node) (q : node_ptr) (hc : h a = some n) :
    storeNext h (some a) q = .ok (update h a ⟨n.id, q⟩) := by
  simp [storeNext, hc]

/-! ## The three loops -/

theorem tailLoop_spec (h : Heap) (xs : List Int) :
    ∀ (fuel : Nat) (p : node_ptr), chain h p xs = true → xs ≠ [] → xs.length ≤ fuel →
      tailLoop fuel h p = .ok (advance h (xs.length - 1) p) := by
  induction xs with
  | nil => intro _ _ _ hne; exact absurd rfl hne
  | cons x xs ih =>
    intro fuel p hx _ hfuel
    obtain ⟨b, nb, hp, hcell, hrest⟩ := (chain_cons_iff h p x xs).1 hx
    subst hp
    cases fuel with
    | zero => simp at hfuel
    | succ fuel =>
      simp only [List.length_cons] at hfuel
      cases xs with
      | nil =>
        rw [chain_nil_iff] at hrest
        subst hrest
        simp [tailLoop, load_cell h b _ hcell, advance, bind, Except.bind, pure, Except.pure]
      | cons y ys =>
        obtain ⟨b2, nb2, hp2, _, _⟩ := (chain_cons_iff h nb y ys).1 hrest
        subst hp2
        have := ih fuel (some b2) hrest (by simp) (by omega)
        simp only [List.length_cons, Nat.add_sub_cancel] at this ⊢
        simp [tailLoop, load_cell h b _ hcell, bind, Except.bind, this, advance, hcell]

theorem middleLoop_spec (h : Heap) :
    ∀ (fuel : Nat) (slow fast : node_ptr) (ss fs : List Int),
      chain h slow ss = true → chain h fast fs = true → fs ≠ [] →
      fs.length ≤ ss.length → fs.length ≤ fuel →
      middleLoop fuel h slow fast =
        .ok (advance h ((fs.length - 1) / 2) slow, advance h (2 * ((fs.length - 1) / 2)) fast) := by
  intro fuel
  induction fuel with
  | zero =>
    intro slow fast ss fs _ _ hne _ hfuel
    cases fs with
    | nil => exact absurd rfl hne
    | cons x fs => simp at hfuel
  | succ fuel ih =>
    intro slow fast ss fs hs hf hne hlen hfuel
    cases fs with
    | nil => exact absurd rfl hne
    | cons x fs1 =>
      obtain ⟨b, nb, hp, hcell, hrest⟩ := (chain_cons_iff h fast x fs1).1 hf
      subst hp
      cases fs1 with
      | nil =>
        rw [chain_nil_iff] at hrest
        subst hrest
        simp [middleLoop, load_cell h b _ hcell, advance, bind, Except.bind, pure, Except.pure]
      | cons y fs2 =>
        obtain ⟨b1, nb1, hp1, hcell1, hrest1⟩ := (chain_cons_iff h nb y fs2).1 hrest
        subst hp1
        cases fs2 with
        | nil =>
          rw [chain_nil_iff] at hrest1
          subst hrest1
          simp [middleLoop, load_cell h b _ hcell, load_cell h b1 _ hcell1, advance, bind,
            Except.bind, pure, Except.pure]
        | cons z fs3 =>
          obtain ⟨b2, nb2, hp2, hcell2, hrest2⟩ := (chain_cons_iff h nb1 z fs3).1 hrest1
          subst hp2
          cases ss with
          | nil => simp at hlen
          | cons s ss1 =>
            obtain ⟨d, nd, hpd, hcelld, hrestd⟩ := (chain_cons_iff h slow s ss1).1 hs
            subst hpd
            simp only [List.length_cons] at hlen hfuel
            have hrec := ih nd (some b2) ss1 (z :: fs3) hrestd hrest1 (by simp)
              (by simp only [List.length_cons]; omega) (by simp only [List.length_cons]; omega)
            have hk : (fs3.length + 1 + 1 + 1 - 1) / 2 = (fs3.length + 1 - 1) / 2 + 1 := by omega
            simp only [List.length_cons] at hrec ⊢
            rw [hk]
            have h2 : 2 * ((fs3.length + 1 - 1) / 2 + 1) = 2 * ((fs3.length + 1 - 1) / 2) + 1 + 1 := by
              omega
            rw [h2]
            simp [middleLoop, load_cell h b _ hcell, load_cell h b1 _ hcell1,
              load_cell h d _ hcelld, bind, Except.bind, hrec, advance, hcell, hcell1, hcelld]

theorem positionLoop_spec (h : Heap) (position : Int) (cs : List Int) :
    ∀ (fuel : Nat) (current : node_ptr) (index : Int),
      chain h current cs = true → cs ≠ [] → cs.length ≤ fuel →
      positionLoop fuel h current index position =
        .ok (advance h (min (cs.length - 1) (position - 1 - index).toNat) current) := by
  induction cs with
  | nil => intro _ _ _ _ hne; exact absurd rfl hne
  | cons x cs ih =>
    intro fuel current index hx _ hfuel
    obtain ⟨b, nb, hp, hcell, hrest⟩ := (chain_cons_iff h current x cs).1 hx
    subst hp
    cases fuel with
    | zero => simp at hfuel
    | succ fuel =>
      simp only [List.length_cons] at hfuel
      cases cs with
      | nil =>
        rw [chain_nil_iff] at hrest
        subst hrest
        simp [positionLoop, load_cell h b _ hcell, advance, bind, Except.bind, pure, Except.pure]
      | cons y ys =>
        obtain ⟨b2, nb2, hp2, _, _⟩ := (chain_cons_iff h nb y ys).1 hrest
        subst hp2
        have hrec := ih fuel (some b2) (index + 1) hrest (by simp) (by omega)
        by_cases hlt : index < position - 1
        · have hk : min ((x :: y :: ys).length - 1) (position - 1 - index).toNat
              = min ((y :: ys).length - 1) (position - 1 - (index + 1)).toNat + 1 := by
            simp only [List.length_cons]
            omega
          rw [hk]
          simp [positionLoop, load_cell h b _ hcell, bind, Except.bind, hlt, hrec, advance, hcell]
        · have hk : min ((x :: y :: ys).length - 1) (position - 1 - index).toNat = 0 := by
            simp only [List.length_cons]
            omega
          rw [hk]
          simp [positionLoop, load_cell h b _ hcell, bind, Except.bind, hlt, advance, pure,
            Except.pure]

/-! ## The four procedures, step by step -/

theorem addNodeHead_block (h : Heap) (a : Nat) (junk : Node) (head : node_ptr) (v : Int) :
    addNodeHead h (.block a junk) head v = .ok (update h a ⟨v, head⟩, some a) := by
  simp [addNodeHead, malloc, storeId_cell _ a junk v (update_same h a junk),
    storeNext_cell _ a _ head (update_same _ a _), update_update, bind, Except.bind, pure,
    Except.pure]

theorem addNodeTail_block_nil (fuel : Nat) (h : Heap) (a : Nat) (junk : Node) (v : Int) :
    addNodeTail fuel h (.block a junk) none v = .ok (update h a ⟨v, none⟩, some a) := by
  simp [addNodeTail, malloc, storeId_cell _ a junk v (update_same h a junk),
    storeNext_cell _ a _ none (update_same _ a _), update_update, bind, Except.bind, pure,
    Except.pure]

theorem addNodeMiddle_block_nil (fuel : Nat) (h : Heap) (a : Nat) (junk : Node) (v : Int) :
    addNodeMiddle fuel h (.block a junk) none v = .ok (update h a ⟨v, none⟩, some a) := by
  simp [addNodeMiddle, malloc, storeId_cell _ a junk v (update_same h a junk),
    storeNext_cell _ a _ none (update_same _ a _), update_update, bind, Except.bind, pure,
    Except.pure]

theorem addNodoInPosition_block_head (fuel : Nat) (h : Heap) (a : Nat) (junk : Node)
    (head : node_ptr) (v : Int) (position : Int) (hp : head = none ∨ position ≤ 0) :
    addNodoInPosition fuel h (.block a junk) head v position =
      .ok (update h a ⟨v, head⟩, some a) := by
  have hcond : (head.isNone || decide (position ≤ 0)) = true := by
    rcases hp with hp | hp
    · simp [hp]
    · simp [hp]
  simp [addNodoInPosition, malloc, storeId_cell _ a junk v (update_same h a junk),
    storeNext_cell _ a _ none (update_same _ a _),
    storeNext_cell _ a _ head (update_same _ a _), update_update, bind, Except.bind, pure,
    Except.pure, hcond]

/-- The two final stores of an insertion after the cell `c`. -/
theorem link_stores (h : Heap) (a : Nat) (v : Int) (w : node_ptr) (c : Nat) (nc : Node)
    (hfresh : h a = none) (hc : h c = some nc) :
    load (update h a ⟨v, w⟩) (some c) = .ok nc ∧
    storeNext (update h a ⟨v, w⟩) (some a) nc.next = .ok (update h a ⟨v, nc.next⟩) ∧
    storeNext (update h a ⟨v, nc.next⟩) (some c) (some a) = .ok (linkAfter h a v c nc) := by
  have hne : c ≠ a := by
    intro hca
    rw [hca, hfresh] at hc
    cases hc
  refine ⟨?_, ?_, ?_⟩
  · exact load_cell _ c nc (by rw [update_other _ a c _ hne]; exact hc)
  · rw [storeNext_cell _ a _ nc.next (update_same _ a _), update_update]
  · rw [storeNext_cell _ c nc (some a) (by rw [update_other _ a c _ hne]; exact hc)]
    rfl

theorem addNodeTail_block_cons (fuel : Nat) (h : Heap) (a : Nat) (junk : Node) (b : Nat)
    (v : Int) (xs : List Int) (hx : chain h (some b) xs = true) (hfresh : h a = none)
    (hfuel : xs.length ≤ fuel) :
    ∃ c nc, advance h (xs.length - 1) (some b) = some c ∧ h c = some nc ∧
      addNodeTail fuel h (.block a junk) (some b) v = .ok (linkAfter h a v c nc, some b) := by
  have hne : xs ≠ [] := by
    intro hnil
    subst hnil
    simp [chain] at hx
  have hpos : 0 < xs.length := List.length_pos.2 hne
  obtain ⟨c, nc, hadv, hc, hsuf⟩ := advance_cell h (xs.length - 1) (some b) xs hx (by omega)
  have hnext : nc.next = none := by
    have h1 : xs.length - 1 + 1 = xs.length := by omega
    rw [h1, List.drop_length, chain_nil_iff] at hsuf
    exact hsuf
  have hx3 := chain_update_fresh h a ⟨v, none⟩ hfresh xs (some b) hx
  have hloop := tailLoop_spec _ xs fuel (some b) hx3 hne hfuel
  rw [advance_update_fresh h a _ hfresh _ (some b) xs hx (by omega), hadv] at hloop
  obtain ⟨_, _, hst⟩ := link_stores h a v none c nc hfresh hc
  rw [hnext] at hst
  refine ⟨c, nc, hadv, hc, ?_⟩
  simp [addNodeTail, malloc, storeId_cell _ a junk v (update_same h a junk),
    storeNext_cell _ a _ none (update_same _ a _), update_update, bind, Except.bind, pure,
    Except.pure, hloop, hst]

theorem addNodeMiddle_block_cons (fuel : Nat) (h : Heap) (a : Nat) (junk : Node) (b : Nat)
    (v : Int) (xs : List Int) (hx : chain h (some b) xs = true) (hfresh : h a = none)
    (hfuel : xs.length ≤ fuel) :
    ∃ c nc, advance h ((xs.length - 1) / 2) (some b) = some c ∧ h c = some nc ∧
      addNodeMiddle fuel h (.block a junk) (some b) v = .ok (linkAfter h a v c nc, some b) := by
  have hne : xs ≠ [] := by
    intro hnil
    subst hnil
    simp [chain] at hx
  have hpos : 0 < xs.length := List.length_pos.2 hne
  obtain ⟨c, nc, hadv, hc, _⟩ := advance_cell h ((xs.length - 1) / 2) (some b) xs hx (by omega)
  have hx2 := chain_update_fresh h a ⟨v, junk.next⟩ hfresh xs (some b) hx
  have hloop := middleLoop_spec _ fuel (some b) (some b) xs xs hx2 hx2 hne (le_refl _) hfuel
  rw [advance_update_fresh h a _ hfresh _ (some b) xs hx (by omega), hadv] at hloop
  obtain ⟨hld, hst1, hst2⟩ := link_stores h a v junk.next c nc hfresh hc
  refine ⟨c, nc, hadv, hc, ?_⟩
  simp [addNodeMiddle, malloc, storeId_cell _ a junk v (update_same h a junk), update_update,
    bind, Except.bind, pure, Except.pure, hloop, hld, hst1, hst2]

theorem addNodoInPosition_block_cons (fuel : Nat) (h : Heap) (a : Nat) (junk : Node) (b : Nat)
    (v : Int) (position : Int) (xs : List Int) (hx : chain h (some b) xs = true)
    (hfresh : h a = none) (hfuel : xs.length ≤ fuel) (hpos : 0 < position) :
    ∃ c nc, advance h (min (xs.length - 1) (position - 1).toNat) (some b) = some c ∧
      h c = some nc ∧
      addNodoInPosition fuel h (.block a junk) (some b) v position =
        .ok (linkAfter h a v c nc, some b) := by
  have hne : xs ≠ [] := by
    intro hnil
    subst hnil
    simp [chain] at hx
  have hlen : 0 < xs.length := List.length_pos.2 hne
  obtain ⟨c, nc, hadv, hc, _⟩ :=
    advance_cell h (min (xs.length - 1) (position - 1).toNat) (some b) xs hx (by omega)
  have hx3 := chain_update_fresh h a ⟨v, none⟩ hfresh xs (some b) hx
  have hloop := positionLoop_spec _ position xs fuel (some b) 0 hx3 hne hfuel
  rw [sub_zero, advance_update_fresh h a _ hfresh _ (some b) xs hx (by omega), hadv] at hloop
  obtain ⟨hld, hst1, hst2⟩ := link_stores h a v none c nc hfresh hc
  have hcond : ¬ position ≤ 0 := by omega
  refine ⟨c, nc, hadv, hc, ?_⟩
  simp [addNodoInPosition, malloc, storeId_cell _ a junk v (update_same h a junk),
    storeNext_cell _ a _ none (update_same _ a _), update_update, bind, Except.bind, pure,
    Except.pure, hloop, hld, hst1, hst2, hcond]

theorem chain_head_ptr (h : Heap) (head : node_ptr) (xs : List Int)
    (hx : chain h head xs = true) (hne : xs ≠ []) : ∃ b, head = some b := by
  cases xs with
  | nil => exact absurd rfl hne
  | cons x xs =>
    obtain ⟨b, _, hp, _, _⟩ := (chain_cons_iff h head x xs).1 hx
    exact ⟨b, hp⟩

theorem chain_cons_fresh (h : Heap) (a : Nat) (v : Int) (head : node_ptr) (xs : List Int)
    (hx : chain h head xs = true) (hfresh : h a = none) :
    chain (update h a ⟨v, head⟩) (some a) (v :: xs) = true :=
  (chain_cons_iff _ _ _ _).2
    ⟨a, head, rfl, update_same _ _ _, chain_update_fresh h a _ hfresh xs head hx⟩

/-! ## The insertion contracts -/

/-- C1: a successful `addNodeTail` on a heap holding the list `xs` (possibly
empty) terminates without fault and leaves the list `xs ++ [v]`: every old
value keeps its position and `v` is last. -/
theorem addNodeTail_appends (fuel : Nat) (h : Heap) (a : Nat) (junk : Node)
    (head : node_ptr) (v : Int) (xs : List Int)
    (hx : chain h head xs = true) (hfresh : h a = none) (hfuel : xs.length ≤ fuel) :
    ∃ h' r, addNodeTail fuel h (.block a junk) head v = .ok (h', r) ∧
      chain h' r (xs ++ [v]) = true := by
  cases xs with
  | nil =>
    rw [chain_nil_iff] at hx
    subst hx
    exact ⟨_, _, addNodeTail_block_nil fuel h a junk v,
      chain_cons_fresh h a v none [] rfl hfresh⟩
  | cons x xs =>
    obtain ⟨b, hb⟩ := chain_head_ptr h head _ hx (by simp)
    subst hb
    obtain ⟨c, nc, hadv, hc, hrun⟩ := addNodeTail_block_cons fuel h a junk b v _ hx hfresh hfuel
    refine ⟨_, _, hrun, ?_⟩
    have := chain_linkAfter h a v hfresh ((x :: xs).length - 1) (some b) (x :: xs) c nc hx
      (by simp) hadv hc
    simpa [insertAt] using this

theorem addNodeTail_appends_witness :
    chain heap3 (some 1) [10, 20, 30] = true ∧ heap3 5 = none ∧
    ∃ h' r, addNodeTail 3 heap3 (.block 5 ⟨99, some 77⟩) (some 1) 42 = .ok (h', r) ∧
      chain h' r ([10, 20, 30] ++ [42]) = true :=
  ⟨by decide, by decide,
    addNodeTail_appends 3 heap3 5 ⟨99, some 77⟩ (some 1) 42 [10, 20, 30]
      (by decide) (by decide) (by decide)⟩

/-- C2: a successful `addNodeHead` on a heap holding the list `xs` (possibly
empty) leaves the list `v :: xs`: `v` is first and the old list follows. -/
theorem addNodeHead_prepends (h : Heap) (a : Nat) (junk : Node)
    (head : node_ptr) (v : Int) (xs : List Int)
    (hx : chain h head xs = true) (hfresh : h a = none) :
    ∃ h' r, addNodeHead h (.block a junk) head v = .ok (h', r) ∧
      chain h' r (v :: xs) = true :=
  ⟨_, _, addNodeHead_block h a junk head v, chain_cons_fresh h a v head xs hx hfresh⟩

theorem addNodeHead_prepends_witness :
    chain heap3 (some 1) [10, 20, 30] = true ∧ heap3 5 = none ∧
    ∃ h' r, addNodeHead heap3 (.block 5 ⟨99, some 77⟩) (some 1) 42 = .ok (h', r) ∧
      chain h' r (42 :: [10, 20, 30]) = true :=
  ⟨by decide, by decide,
    addNodeHead_prepends heap3 5 ⟨99, some 77⟩ (some 1) 42 [10, 20, 30]
      (by decide) (by decide)⟩

/-- C3: a successful `addNodeMiddle` on a heap holding a list `xs` of length
`n` terminates without fault; for `n = 0` it leaves `[v]`, and for `n ≥ 1` it
links the new node right after index `k = (n - 1) / 2`, leaving the first
`k + 1` values of `xs`, then `v`, then the other `n - k - 1` values. -/
theorem addNodeMiddle_inserts (fuel : Nat) (h : Heap) (a : Nat) (junk : Node)
    (head : node_ptr) (v : Int) (xs : List Int)
    (hx : chain h head xs = true) (hfresh : h a = none) (hfuel : xs.length ≤ fuel) :
    ∃ h' r, addNodeMiddle fuel h (.block a junk) head v = .ok (h', r) ∧
      (xs = [] → chain h' r [v] = true) ∧
      (1 ≤ xs.length →
        chain h' r (xs.take ((xs.length - 1) / 2 + 1) ++ v ::
          xs.drop ((xs.length - 1) / 2 + 1)) = true ∧
        (xs.take ((xs.length - 1) / 2 + 1)).length = (xs.length - 1) / 2 + 1 ∧
        (xs.drop ((xs.length - 1) / 2 + 1)).length = xs.length - (xs.length - 1) / 2 - 1) := by
  cases xs with
  | nil =>
    rw [chain_nil_iff] at hx
    subst hx
    refine ⟨_, _, addNodeMiddle_block_nil fuel h a junk v, ?_, ?_⟩
    · intro _
      exact chain_cons_fresh h a v none [] rfl hfresh
    · intro hlen
      simp at hlen
  | cons x xs =>
    obtain ⟨b, hb⟩ := chain_head_ptr h head _ hx (by simp)
    subst hb
    obtain ⟨c, nc, hadv, hc, hrun⟩ :=
      addNodeMiddle_block_cons fuel h a junk b v _ hx hfresh hfuel
    refine ⟨_, _, hrun, ?_, ?_⟩
    · intro hnil
      cases hnil
    · intro _
      refine ⟨?_, ?_, ?_⟩
      · exact chain_linkAfter h a v hfresh (((x :: xs).length - 1) / 2) (some b) (x :: xs) c nc
          hx (by simp only [List.length_cons]; omega) hadv hc
      · rw [List.length_take]
        simp only [List.length_cons]
        omega
      · rw [List.length_drop]
        simp only [List.length_cons]
        omega

theorem addNodeMiddle_inserts_witness :
    chain heap3 (some 1) [10, 20, 30] = true ∧ heap3 5 = none ∧
    ∃ h' r, addNodeMiddle 3 heap3 (.block 5 ⟨99, some 77⟩) (some 1) 42 = .ok (h', r) ∧
      chain h' r [10, 20, 42, 30] = true := by
  refine ⟨by decide, by decide, ?_⟩
  obtain ⟨h', r, hrun, _, hmid⟩ :=
    addNodeMiddle_inserts 3 heap3 5 ⟨99, some 77⟩ (some 1) 42 [10, 20, 30]
      (by decide) (by decide) (by decide)
  exact ⟨h', r, hrun, by simpa using (hmid (by decide)).1⟩

/-- C4: for every heap, `malloc` outcome, head pointer, value and position
`p ≤ 0` (zero or negative), `addNodoInPosition` ends without fault in exactly
the heap and returned pointer of `addNodeHead`. -/
theorem addNodoInPosition_nonpos_eq_head (fuel : Nat) (h : Heap) (m : Malloc)
    (head : node_ptr) (v : Int) (p : Int) (hp : p ≤ 0) :
    addNodoInPosition fuel h m head v p = addNodeHead h m head v ∧
      ∃ s, addNodeHead h m head v = .ok s := by
  cases m with
  | null => exact ⟨rfl, _, rfl⟩
  | block a junk =>
    rw [addNodoInPosition_block_head fuel h a junk head v p (Or.inr hp),
      addNodeHead_block h a junk head v]
    exact ⟨rfl, _, rfl⟩

theorem addNodoInPosition_nonpos_eq_head_witness :
    (-4 : Int) ≤ 0 ∧
    addNodoInPosition 0 heap3 (.block 5 ⟨99, some 77⟩) (some 1) 42 (-4) =
      addNodeHead heap3 (.block 5 ⟨99, some 77⟩) (some 1) 42 :=
  ⟨by decide,
    (addNodoInPosition_nonpos_eq_head 0 heap3 (.block 5 ⟨99, some 77⟩) (some 1) 42 (-4)
      (by decide)).1⟩

/-- C5: on a heap holding a list `xs` of length `n`, for every position
`p ≥ n` and every fresh `malloc` outcome, `addNodoInPosition` ends without
fault in exactly the heap and returned pointer of `addNodeTail`; after a
successful allocation that is the list `xs ++ [v]`. -/
theorem addNodoInPosition_beyond_eq_tail (fuel : Nat) (h : Heap) (m : Malloc)
    (head : node_ptr) (v : Int) (p : Int) (xs : List Int)
    (hx : chain h head xs = true) (hfresh : m.fresh h) (hfuel : xs.length ≤ fuel)
    (hp : (xs.length : Int) ≤ p) :
    addNodoInPosition fuel h m head v p = addNodeTail fuel h m head v ∧
      ∃ h' r, addNodeTail fuel h m head v = .ok (h', r) ∧
        (m ≠ .null → chain h' r (xs ++ [v]) = true) := by
  cases m with
  | null => exact ⟨rfl, _, _, rfl, fun hne => absurd rfl hne⟩
  | block a junk =>
    have hfresh2 : h a = none := hfresh
    cases xs with
    | nil =>
      rw [chain_nil_iff] at hx
      subst hx
      rw [addNodoInPosition_block_head fuel h a junk none v p (Or.inl rfl),
        addNodeTail_block_nil fuel h a junk v]
      exact ⟨rfl, _, _, rfl, fun _ => chain_cons_fresh h a v none [] rfl hfresh2⟩
    | cons x xs =>
      obtain ⟨b, hb⟩ := chain_head_ptr h head _ hx (by simp)
      subst hb
      simp only [List.length_cons, Nat.cast_add, Nat.cast_one] at hp
      obtain ⟨c, nc, hadv, hc, hrun⟩ :=
        addNodoInPosition_block_cons fuel h a junk b v p _ hx hfresh2 hfuel (by omega)
      obtain ⟨c2, nc2, hadv2, hc2, hrun2⟩ :=
        addNodeTail_block_cons fuel h a junk b v _ hx hfresh2 hfuel
      have hk : min ((x :: xs).length - 1) (p - 1).toNat = (x :: xs).length - 1 := by
        simp only [List.length_cons]
        omega
      rw [hk, hadv2] at hadv
      cases hadv
      rw [hc2] at hc
      cases hc
      rw [hrun, hrun2]
      refine ⟨rfl, _, _, rfl, fun _ => ?_⟩
      have := chain_linkAfter h a v hfresh2 ((x :: xs).length - 1) (some b) (x :: xs) c nc hx
        (by simp) hadv2 hc2
      simpa [insertAt] using this

theorem addNodoInPosition_beyond_eq_tail_witness :
    chain heap3 (some 1) [10, 20, 30] = true ∧ heap3 5 = none ∧ ((3 : Nat) : Int) ≤ 3 ∧
    addNodoInPosition 3 heap3 (.block 5 ⟨99, some 77⟩) (some 1) 42 3 =
      addNodeTail 3 heap3 (.block 5 ⟨99, some 77⟩) (some 1) 42 :=
  ⟨by decide, by decide, by decide,
    (addNodoInPosition_beyond_eq_tail 3 heap3 (.block 5 ⟨99, some 77⟩) (some 1) 42 3
      [10, 20, 30] (by decide) (by show heap3 5 = none; decide) (by decide) (by decide)).1⟩

/-- C6: on a heap holding a list `xs` of length `n`, for `0 < p < n` a
successful `addNodoInPosition` terminates without fault and leaves the first
`p` values of `xs`, then `v`, then the other `n - p` values: `v` sits at
0-based index `p`. -/
theorem addNodoInPosition_inserts_at (fuel : Nat) (h : Heap) (a : Nat) (junk : Node)
    (head : node_ptr) (v : Int) (p : Int) (xs : List Int)
    (hx : chain h head xs = true) (hfresh : h a = none) (hfuel : xs.length ≤ fuel)
    (hpos : 0 < p) (hlt : p < xs.length) :
    ∃ h' r, addNodoInPosition fuel h (.block a junk) head v p = .ok (h', r) ∧
      chain h' r (xs.take p.toNat ++ v :: xs.drop p.toNat) = true ∧
      (xs.take p.toNat ++ v :: xs.drop p.toNat)[p.toNat]? = some v ∧
      (xs.take p.toNat).length = p.toNat ∧
      ((xs.drop p.toNat).length : Int) = xs.length - p := by
  have hne : xs ≠ [] := by
    intro hnil
    subst hnil
    simp at hlt
    omega
  obtain ⟨b, hb⟩ := chain_head_ptr h head _ hx hne
  subst hb
  obtain ⟨c, nc, hadv, hc, hrun⟩ :=
    addNodoInPosition_block_cons fuel h a junk b v p _ hx hfresh hfuel hpos
  have hk : min (xs.length - 1) (p - 1).toNat = p.toNat - 1 := by omega
  have hk1 : p.toNat - 1 + 1 = p.toNat := by omega
  rw [hk] at hadv
  have hlen : (xs.take p.toNat).length = p.toNat := by
    rw [List.length_take]
    omega
  refine ⟨_, _, hrun, ?_, ?_, hlen, ?_⟩
  · have := chain_linkAfter h a v hfresh (p.toNat - 1) (some b) xs c nc hx (by omega) hadv hc
    rw [hk1] at this
    exact this
  · rw [List.getElem?_append_right (by omega), hlen]
    simp
  · rw [List.length_drop]
    omega

theorem addNodoInPosition_inserts_at_witness :
    chain heap3 (some 1) [10, 20, 30] = true ∧ heap3 5 = none ∧
    ∃ h' r, addNodoInPosition 3 heap3 (.block 5 ⟨99, some 77⟩) (some 1) 42 2 = .ok (h', r) ∧
      chain h' r [10, 20, 42, 30] = true := by
  refine ⟨by decide, by decide, ?_⟩
  obtain ⟨h', r, hrun, hch, _⟩ :=
    addNodoInPosition_inserts_at 3 heap3 5 ⟨99, some 77⟩ (some 1) 42 2 [10, 20, 30]
      (by decide) (by decide) (by decide) (by decide) (by decide)
  exact ⟨h', r, hrun, by simpa using hch⟩

/-! ## Sequences of insertions -/

theorem mem_addresses (h : Heap) (c : Nat) (k : Nat) :
    ∀ (q : node_ptr) (ys : List Int), chain h q ys = true → c ∈ addresses h k q →
      ∃ j, j < ys.length ∧ advance h j q = some c := by
  induction k with
  | zero =>
    intro q ys _ hmem
    simp [addresses] at hmem
  | succ k ih =>
    intro q ys hq hmem
    cases ys with
    | nil =>
      rw [chain_nil_iff] at hq
      subst hq
      simp [addresses] at hmem
    | cons y ys =>
      obtain ⟨d, nd, hp, hcell, hrest⟩ := (chain_cons_iff h q y ys).1 hq
      subst hp
      simp only [addresses, hcell, List.mem_cons] at hmem
      rcases hmem with hcd | hmem
      · subst hcd
        exact ⟨0, by simp, rfl⟩
      · obtain ⟨j, hj, hadv⟩ := ih nd ys hrest hmem
        refine ⟨j + 1, by simp only [List.length_cons]; omega, ?_⟩
        simp only [advance, hcell]
        exact hadv

/-- The nodes of a chain sit at pairwise distinct addresses: the chain is acyclic. -/
theorem addresses_nodup (h : Heap) (xs : List Int) :
    ∀ p : node_ptr, chain h p xs = true → (addresses h xs.length p).Nodup := by
  induction xs with
  | nil =>
    intro p _
    simp [addresses]
  | cons x xs ih =>
    intro p hx
    obtain ⟨b, nb, hp, hcell, hrest⟩ := (chain_cons_iff h p x xs).1 hx
    subst hp
    simp only [List.length_cons, addresses, hcell, List.nodup_cons]
    refine ⟨?_, ih nb hrest⟩
    intro hmem
    obtain ⟨j, hj, hadv⟩ := mem_addresses h b xs.length nb xs hrest hmem
    have hsuf := chain_advance h j nb xs hrest
    rw [hadv] at hsuf
    have hlen := congrArg List.length (chain_unique _ _ _ _ hx hsuf)
    simp at hlen
    omega

theorem addresses_length (h : Heap) (xs : List Int) :
    ∀ p : node_ptr, chain h p xs = true → (addresses h xs.length p).length = xs.length := by
  induction xs with
  | nil =>
    intro p _
    simp [addresses]
  | cons x xs ih =>
    intro p hx
    obtain ⟨b, nb, hp, hcell, hrest⟩ := (chain_cons_iff h p x xs).1 hx
    subst hp
    simp only [List.length_cons, addresses, hcell]
    rw [ih nb hrest]

theorem insertAt_length (xs : List Int) (i : Nat) (v : Int) :
    (insertAt xs i v).length = xs.length + 1 := by
  simp only [insertAt, List.length_append, List.length_cons, List.length_take,
    List.length_drop]
  omega

/-- One successful call, whatever the procedure: it ends without fault, returns
a non-null pointer, inserts its value somewhere into the list, and allocates
nothing but the block it was given. -/
theorem Op.run_block (op : Op) (fuel : Nat) (h : Heap) (a : Nat) (junk : Node)
    (head : node_ptr) (xs : List Int)
    (hx : chain h head xs = true) (hfresh : h a = none) (hfuel : xs.length ≤ fuel) :
    ∃ h' r i, op.run fuel h (.block a junk) head = .ok (h', r) ∧ r ≠ none ∧
      i ≤ xs.length ∧ chain h' r (insertAt xs i op.value) = true ∧
      ∀ b, b ≠ a → h b = none → h' b = none := by
  have hhead : ∀ v : Int, chain (update h a ⟨v, head⟩) (some a) (insertAt xs 0 v) = true ∧
      ∀ b, b ≠ a → h b = none → update h a ⟨v, head⟩ b = none := by
    intro v
    refine ⟨chain_cons_fresh h a v head xs hx hfresh, ?_⟩
    intro b hba hb
    rw [update_other _ a b _ hba]
    exact hb
  have hlink : ∀ (v : Int) (k : Nat) (b c : Nat) (nc : Node), head = some b → k < xs.length →
      advance h k (some b) = some c → h c = some nc →
      chain (linkAfter h a v c nc) head (insertAt xs (k + 1) v) = true ∧
      ∀ d, d ≠ a → h d = none → linkAfter h a v c nc d = none := by
    intro v k b c nc hb hk hadv hc
    subst hb
    refine ⟨chain_linkAfter h a v hfresh k (some b) xs c nc hx hk hadv hc, ?_⟩
    intro d hda hd
    have hdc : d ≠ c := by
      intro hdc
      rw [hdc, hc] at hd
      cases hd
    unfold linkAfter
    rw [update_other _ c d _ hdc, update_other _ a d _ hda]
    exact hd
  cases xs with
  | nil =>
    rw [chain_nil_iff] at hx
    subst hx
    obtain ⟨hch, hfr⟩ := hhead op.value
    refine ⟨update h a ⟨op.value, none⟩, some a, 0, ?_, by simp, by simp, hch, hfr⟩
    cases op with
    | tail v => exact addNodeTail_block_nil fuel h a junk v
    | head v => exact addNodeHead_block h a junk none v
    | middle v => exact addNodeMiddle_block_nil fuel h a junk v
    | position v p => exact addNodoInPosition_block_head fuel h a junk none v p (Or.inl rfl)
  | cons x xs =>
    obtain ⟨b, hb⟩ := chain_head_ptr h head _ hx (by simp)
    cases op with
    | tail v =>
      subst hb
      obtain ⟨c, nc, hadv, hc, hrun⟩ :=
        addNodeTail_block_cons fuel h a junk b v _ hx hfresh hfuel
      obtain ⟨hch, hfr⟩ := hlink v _ b c nc rfl (by simp) hadv hc
      exact ⟨_, _, _, hrun, by simp, by simp, hch, hfr⟩
    | head v =>
      obtain ⟨hch, hfr⟩ := hhead v
      exact ⟨_, _, 0, addNodeHead_block h a junk head v, by simp, by simp, hch, hfr⟩
    | middle v =>
      subst hb
      obtain ⟨c, nc, hadv, hc, hrun⟩ :=
        addNodeMiddle_block_cons fuel h a junk b v _ hx hfresh hfuel
      have hk : ((x :: xs).length - 1) / 2 < (x :: xs).length := by
        simp only [List.length_cons]
        omega
      obtain ⟨hch, hfr⟩ := hlink v _ b c nc rfl hk hadv hc
      exact ⟨_, _, _, hrun, by simp, hk, hch, hfr⟩
    | position v p =>
      by_cases hp : p ≤ 0
      · obtain ⟨hch, hfr⟩ := hhead v
        exact ⟨_, _, 0, addNodoInPosition_block_head fuel h a junk head v p (Or.inr hp),
          by simp, by simp, hch, hfr⟩
      · subst hb
        obtain ⟨c, nc, hadv, hc, hrun⟩ :=
          addNodoInPosition_block_cons fuel h a junk b v p _ hx hfresh hfuel (by omega)
        have hk : min ((x :: xs).length - 1) (p - 1).toNat < (x :: xs).length := by
          simp only [List.length_cons]
          omega
        obtain ⟨hch, hfr⟩ := hlink v _ b c nc rfl hk hadv hc
        exact ⟨_, _, _, hrun, by simp, hk, hch, hfr⟩

/-- A run of successful calls from a heap holding `xs` ends without fault in a
heap holding a list with one more value per call. -/
theorem runAll_successful (fuel : Nat) (calls : List (Op × Nat × Node)) :
    ∀ (h : Heap) (head : node_ptr) (xs : List Int), chain h head xs = true →
      (∀ c ∈ calls, h c.2.1 = none) → (calls.map fun c => c.2.1).Nodup →
      xs.length + calls.length ≤ fuel →
      ∃ h' r ys, runAll fuel h head (successful calls) = .ok (h', r) ∧
        chain h' r ys = true ∧ ys.length = xs.length + calls.length := by
  induction calls with
  | nil =>
    intro h head xs hx _ _ _
    exact ⟨h, head, xs, rfl, hx, rfl⟩
  | cons call calls ih =>
    intro h head xs hx hfresh hnodup hfuel
    obtain ⟨op, a, junk⟩ := call
    simp only [List.map_cons, List.nodup_cons, List.length_cons] at hnodup hfuel
    obtain ⟨h1, r1, i, hrun, _, _, hch, hfr⟩ :=
      Op.run_block op fuel h a junk head xs hx (hfresh _ (List.mem_cons_self _ _)) (by omega)
    have hfresh1 : ∀ c ∈ calls, h1 c.2.1 = none := by
      intro c hc
      apply hfr
      · intro hca
        apply hnodup.1
        rw [← hca]
        exact List.mem_map_of_mem (fun c => c.2.1) hc
      · exact hfresh c (List.mem_cons_of_mem _ hc)
    obtain ⟨h2, r2, ys, hrest, hch2, hlen2⟩ :=
      ih h1 r1 (insertAt xs i op.value) hch hfresh1 hnodup.2
        (by rw [insertAt_length]; omega)
    refine ⟨h2, r2, ys, ?_, hch2, ?_⟩
    · simp only [successful, List.map_cons, runAll, hrun]
      exact hrest
    · rw [hlen2, insertAt_length, List.length_cons]
      omega

/-- C7: from the empty list, any finite sequence of successful calls of the
four procedures (any values, any positions, blocks at fresh distinct addresses)
ends without fault in a heap whose chain is finite (it reaches `NULL` after
exactly as many nodes as there were calls) and acyclic (those nodes sit at
pairwise distinct addresses). -/
theorem insertions_count (fuel : Nat) (h : Heap) (calls : List (Op × Nat × Node))
    (hfresh : ∀ c ∈ calls, h c.2.1 = none) (hnodup : (calls.map fun c => c.2.1).Nodup)
    (hfuel : calls.length ≤ fuel) :
    ∃ h' r ys, runAll fuel h none (successful calls) = .ok (h', r) ∧
      chain h' r ys = true ∧ ys.length = calls.length ∧
      (addresses h' calls.length r).Nodup ∧
      (addresses h' calls.length r).length = calls.length ∧
      advance h' calls.length r = none := by
  obtain ⟨h', r, ys, hrun, hch, hlen⟩ :=
    runAll_successful fuel calls h none [] rfl hfresh hnodup (by simpa using hfuel)
  simp only [List.length_nil, Nat.zero_add] at hlen
  refine ⟨h', r, ys, hrun, hch, hlen, ?_, ?_, ?_⟩
  · rw [← hlen]
    exact addresses_nodup h' ys r hch
  · rw [← hlen]
    exact addresses_length h' ys r hch
  · have := chain_advance h' ys.length r ys hch
    rw [List.drop_length, chain_nil_iff] at this
    rw [← hlen]
    exact this

theorem insertions_count_witness :
    ∃ h' r ys,
      runAll 4 heap0 none (successful
        [(.tail 5, 1, ⟨0, none⟩), (.head 3, 2, ⟨0, none⟩), (.position 9 1, 3, ⟨0, none⟩),
          (.middle 7, 4, ⟨0, none⟩)]) = .ok (h', r) ∧
      chain h' r ys = true ∧ ys.length = 4 ∧ (addresses h' 4 r).Nodup ∧
      (addresses h' 4 r).length = 4 ∧ advance h' 4 r = none :=
  insertions_count 4 heap0
    [(.tail 5, 1, ⟨0, none⟩), (.head 3, 2, ⟨0, none⟩), (.position 9 1, 3, ⟨0, none⟩),
      (.middle 7, 4, ⟨0, none⟩)]
    (by intro c _; rfl) (by decide) (by decide)

/-! ## The middle position and the documentation -/

/-- C8: on the one-node list `[10]` (`n = 1`), `addNodeMiddle` links the new
node after the only node, so the new value sits at index 1 of the result,
whereas the documented middle position `n / 2` is index 0. -/
theorem addNodeMiddle_one_node :
    ∃ h' r, addNodeMiddle 1 heap1 (.block 2 ⟨0, none⟩) (some 1) 42 = .ok (h', r) ∧
      chain h' r [10, 42] = true ∧
      chain h' r (insertAt [10] (1 / 2) 42) = false ∧
      addresses h' 2 r = [1, 2] := by
  refine ⟨_, _, rfl, ?_, ?_, ?_⟩ <;> decide

/-! ## Allocation failure -/

/-- C9: when `malloc` returns `NULL`, each of the four procedures ends at once
with the heap it was given: no `id`, no `next` link and no allocation is
changed (and the pointer returned is `NULL`). -/
theorem alloc_failure_unchanged (fuel : Nat) (h : Heap) (head : node_ptr) (v : Int) (p : Int) :
    addNodeTail fuel h .null head v = .ok (h, none) ∧
    addNodeHead h .null head v = .ok (h, none) ∧
    addNodeMiddle fuel h .null head v = .ok (h, none) ∧
    addNodoInPosition fuel h .null head v p = .ok (h, none) :=
  ⟨rfl, rfl, rfl, rfl⟩

/-- C10: on a heap holding a list, each of the four procedures ends without
fault and returns `NULL` if and only if `malloc` returned `NULL`: a successful
insertion never returns the empty list. -/
theorem null_iff_alloc_failed (op : Op) (fuel : Nat) (h : Heap) (m : Malloc)
    (head : node_ptr) (xs : List Int)
    (hx : chain h head xs = true) (hfresh : m.fresh h) (hfuel : xs.length ≤ fuel) :
    ∃ h' r, op.run fuel h m head = .ok (h', r) ∧ (r = none ↔ m = .null) := by
  cases m with
  | null =>
    refine ⟨h, none, ?_, by simp⟩
    cases op <;> rfl
  | block a junk =>
    obtain ⟨h', r, _, hrun, hr, _⟩ := Op.run_block op fuel h a junk head xs hx hfresh hfuel
    exact ⟨h', r, hrun, by simp [hr]⟩

theorem null_iff_alloc_failed_witness :
    chain heap3 (some 1) [10, 20, 30] = true ∧ heap3 5 = none ∧
    ∃ h' r, addNodeMiddle 3 heap3 (.block 5 ⟨99, some 77⟩) (some 1) 42 = .ok (h', r) ∧
      (r = none ↔ Malloc.block 5 ⟨99, some 77⟩ = .null) :=
  ⟨by decide, by decide,
    null_iff_alloc_failed (.middle 42) 3 heap3 (.block 5 ⟨99, some 77⟩) (some 1) [10, 20, 30]
      (by decide) (by show heap3 5 = none; decide) (by decide)⟩

/-! ## Where each call inserts, and what it leaves alone -/

/-- Allocating the cell `a` allocates nothing else and changes no existing node. -/
theorem update_frame (h : Heap) (a : Nat) (n : Node) (hfresh : h a = none) :
    (∀ b, b ≠ a → h b = none → update h a n b = none) ∧
    (∀ b nb, h b = some nb → update h a n b = some nb) := by
  constructor
  · intro b hba hb
    rw [update_other _ a b _ hba]
    exact hb
  · intro b nb hb
    have hba : b ≠ a := by
      intro hba
      rw [hba, hfresh] at hb
      cases hb
    rw [update_other _ a b _ hba]
    exact hb

/-- Linking the cell `a` after the cell `c` allocates nothing else and changes
no `id` of an existing node. -/
theorem linkAfter_frame (h : Heap) (a : Nat) (v : Int) (c : Nat) (nc : Node)
    (hfresh : h a = none) (hc : h c = some nc) :
    (∀ b, b ≠ a → h b = none → linkAfter h a v c nc b = none) ∧
    (∀ b nb, h b = some nb → ∃ nb', linkAfter h a v c nc b = some nb' ∧ nb'.id = nb.id) := by
  constructor
  · intro b hba hb
    have hbc : b ≠ c := by
      intro hbc
      rw [hbc, hc] at hb
      cases hb
    unfold linkAfter
    rw [update_other _ c b _ hbc, update_other _ a b _ hba]
    exact hb
  · intro b nb hb
    by_cases hbc : b = c
    · subst hbc
      rw [hc] at hb
      cases hb
      exact ⟨_, update_same _ _ _, rfl⟩
    · have hba : b ≠ a := by
        intro hba
        rw [hba, hfresh] at hb
        cases hb
      refine ⟨nb, ?_, rfl⟩
      unfold linkAfter
      rw [update_other _ c b _ hbc, update_other _ a b _ hba]
      exact hb

/-- One successful call, whatever the procedure, in full: it ends without
fault, leaves the list with its value inserted at index `op.index n`, returns
the new node when that index is 0 and the old head otherwise, allocates nothing
but its block, and changes no `id` of an existing node. -/
theorem Op.run_index (op : Op) (fuel : Nat) (h : Heap) (a : Nat) (junk : Node)
    (head : node_ptr) (xs : List Int)
    (hx : chain h head xs = true) (hfresh : h a = none) (hfuel : xs.length ≤ fuel) :
    ∃ h' r, op.run fuel h (.block a junk) head = .ok (h', r) ∧
      chain h' r (insertAt xs (op.index xs.length) op.value) = true ∧
      r = (if op.index xs.length = 0 then some a else head) ∧
      (∀ b, b ≠ a → h b = none → h' b = none) ∧
      (∀ b nb, h b = some nb → ∃ nb', h' b = some nb' ∧ nb'.id = nb.id) := by
  have hhead : ∀ v : Int, op.index xs.length = 0 → op.value = v →
      op.run fuel h (.block a junk) head = .ok (update h a ⟨v, head⟩, some a) →
      ∃ h' r, op.run fuel h (.block a junk) head = .ok (h', r) ∧
        chain h' r (insertAt xs (op.index xs.length) op.value) = true ∧
        r = (if op.index xs.length = 0 then some a else head) ∧
        (∀ b, b ≠ a → h b = none → h' b = none) ∧
        (∀ b nb, h b = some nb → ∃ nb', h' b = some nb' ∧ nb'.id = nb.id) := by
    intro v hidx hval hrun
    obtain ⟨hf1, hf2⟩ := update_frame h a ⟨v, head⟩ hfresh
    refine ⟨_, _, hrun, ?_, by simp [hidx], hf1, fun b nb hb => ⟨nb, hf2 b nb hb, rfl⟩⟩
    rw [hidx, hval]
    exact chain_cons_fresh h a v head xs hx hfresh
  have hlink : ∀ (v : Int) (k : Nat) (b c : Nat) (nc : Node), head = some b →
      op.index xs.length = k + 1 → op.value = v → k < xs.length →
      advance h k (some b) = some c → h c = some nc →
      op.run fuel h (.block a junk) head = .ok (linkAfter h a v c nc, some b) →
      ∃ h' r, op.run fuel h (.block a junk) head = .ok (h', r) ∧
        chain h' r (insertAt xs (op.index xs.length) op.value) = true ∧
        r = (if op.index xs.length = 0 then some a else head) ∧
        (∀ b, b ≠ a → h b = none → h' b = none) ∧
        (∀ b nb, h b = some nb → ∃ nb', h' b = some nb' ∧ nb'.id = nb.id) := by
    intro v k b c nc hb hidx hval hk hadv hc hrun
    obtain ⟨hf1, hf2⟩ := linkAfter_frame h a v c nc hfresh hc
    refine ⟨_, _, hrun, ?_, by simp [hidx, hb], hf1, hf2⟩
    rw [hidx, hval]
    have := chain_linkAfter h a v hfresh k head xs c nc hx hk (by rw [hb]; exact hadv) hc
    rw [hb] at this
    exact this
  cases xs with
  | nil =>
    rw [chain_nil_iff] at hx
    subst hx
    cases op with
    | tail v => exact hhead v rfl rfl (addNodeTail_block_nil fuel h a junk v)
    | head v => exact hhead v rfl rfl (addNodeHead_block h a junk none v)
    | middle v => exact hhead v rfl rfl (addNodeMiddle_block_nil fuel h a junk v)
    | position v p =>
      refine hhead v ?_ rfl (addNodoInPosition_block_head fuel h a junk none v p (Or.inl rfl))
      simp [Op.index]
  | cons x xs =>
    obtain ⟨b, hb⟩ := chain_head_ptr h head _ hx (by simp)
    cases op with
    | tail v =>
      obtain ⟨c, nc, hadv, hc, hrun⟩ :=
        addNodeTail_block_cons fuel h a junk b v _ (by rw [← hb]; exact hx) hfresh hfuel
      exact hlink v _ b c nc hb (by simp [Op.index]) rfl (by simp) hadv hc
        (by rw [hb]; exact hrun)
    | head v => exact hhead v rfl rfl (addNodeHead_block h a junk head v)
    | middle v =>
      obtain ⟨c, nc, hadv, hc, hrun⟩ :=
        addNodeMiddle_block_cons fuel h a junk b v _ (by rw [← hb]; exact hx) hfresh hfuel
      exact hlink v _ b c nc hb (by simp [Op.index]) rfl
        (by simp only [List.length_cons]; omega) hadv hc (by rw [hb]; exact hrun)
    | position v p =>
      by_cases hp : p ≤ 0
      · exact hhead v (by simp [Op.index, hp]) rfl
          (addNodoInPosition_block_head fuel h a junk head v p (Or.inr hp))
      · obtain ⟨c, nc, hadv, hc, hrun⟩ :=
          addNodoInPosition_block_cons fuel h a junk b v p _ (by rw [← hb]; exact hx)
            hfresh hfuel (by omega)
        refine hlink v _ b c nc hb ?_ rfl (by simp only [List.length_cons]; omega) hadv hc
          (by rw [hb]; exact hrun)
        simp only [Op.index, hp, if_false, List.length_cons]
        omega

theorem Op.index_le (op : Op) (n : Nat) : op.index n ≤ n := by
  cases op with
  | tail v => simp [Op.index]
  | head v => simp [Op.index]
  | middle v =>
    simp only [Op.index]
    split <;> omega
  | position v p =>
    simp only [Op.index]
    split <;> omega

theorem Op.index_eq_zero_iff (op : Op) (n : Nat) :
    op.index n = 0 ↔
      n = 0 ∨ (∃ v, op = .head v) ∨ (∃ v p, op = .position v p ∧ p ≤ 0) := by
  cases op with
  | tail v => simp [Op.index]
  | head v => simp [Op.index]
  | middle v =>
    simp only [Op.index]
    split <;> simp <;> omega
  | position v p =>
    simp only [Op.index]
    by_cases hp : p ≤ 0
    · simp only [hp, if_true, true_iff]
      exact Or.inr (Or.inr ⟨v, p, rfl, hp⟩)
    · simp only [hp, if_false]
      constructor
      · intro hmin
        left
        omega
      · rintro (hn | ⟨_, hv⟩ | ⟨_, _, hv, hle⟩)
        · omega
        · cases hv
        · cases hv
          exact absurd hle hp

/-- A fresh address is not the head of a chain. -/
theorem fresh_ne_head (h : Heap) (a : Nat) (head : node_ptr) (xs : List Int)
    (hx : chain h head xs = true) (hfresh : h a = none) : some a ≠ head := by
  intro heq
  subst heq
  cases xs with
  | nil => simp [chain] at hx
  | cons x xs =>
    obtain ⟨b, nb, hp, hcell, _⟩ := (chain_cons_iff h _ x xs).1 hx
    cases hp
    rw [hfresh] at hcell
    cases hcell

theorem insertAt_eraseIdx (v : Int) (xs : List Int) :
    ∀ i, i ≤ xs.length → (insertAt xs i v).eraseIdx i = xs := by
  induction xs with
  | nil =>
    intro i hi
    have : i = 0 := by simpa using hi
    subst this
    simp [insertAt]
  | cons x xs ih =>
    intro i hi
    cases i with
    | zero => simp [insertAt]
    | succ i =>
      simp only [List.length_cons] at hi
      have := ih i (by omega)
      simp only [insertAt] at this
      simp [insertAt, this]

theorem insertAt_getElem (v : Int) (xs : List Int) (i : Nat) (hi : i ≤ xs.length) :
    (insertAt xs i v)[i]? = some v := by
  have hlen : (xs.take i).length = i := by
    rw [List.length_take]
    omega
  unfold insertAt
  rw [List.getElem?_append_right (by omega), hlen]
  simp

theorem insertAt_head (v : Int) (xs : List Int) (i : Nat) (hi : i ≠ 0) (hne : xs ≠ []) :
    (insertAt xs i v).head? = xs.head? := by
  cases xs with
  | nil => exact absurd rfl hne
  | cons x xs =>
    cases i with
    | zero => exact absurd rfl hi
    | succ i => simp [insertAt]

/-! ## The worked example, the head pointer, and the contents -/

/-- C11: the worked example of the specification.  From the empty list, with
any four fresh and distinct blocks: `addNodeTail(5)` leaves `[5]`, then
`addNodeHead(3)` leaves `[3, 5]`, then `addNodoInPosition(9, 1)` leaves
`[3, 9, 5]`, then `addNodeMiddle(7)` leaves `[3, 9, 7, 5]`; each call ends
without fault. -/
theorem worked_example (fuel : Nat) (h : Heap) (a1 a2 a3 a4 : Nat) (j1 j2 j3 j4 : Node)
    (hfresh : h a1 = none ∧ h a2 = none ∧ h a3 = none ∧ h a4 = none)
    (hdist : [a1, a2, a3, a4].Nodup) (hfuel : 3 ≤ fuel) :
    ∃ h1 r1 h2 r2 h3 r3 h4 r4,
      addNodeTail fuel h (.block a1 j1) none 5 = .ok (h1, r1) ∧
      chain h1 r1 [5] = true ∧
      addNodeHead h1 (.block a2 j2) r1 3 = .ok (h2, r2) ∧
      chain h2 r2 [3, 5] = true ∧
      addNodoInPosition fuel h2 (.block a3 j3) r2 9 1 = .ok (h3, r3) ∧
      chain h3 r3 [3, 9, 5] = true ∧
      addNodeMiddle fuel h3 (.block a4 j4) r3 7 = .ok (h4, r4) ∧
      chain h4 r4 [3, 9, 7, 5] = true := by
  obtain ⟨hf1, hf2, hf3, hf4⟩ := hfresh
  simp only [List.nodup_cons, List.mem_cons, List.mem_singleton, not_or, List.not_mem_nil,
    not_false_eq_true, List.nodup_nil, and_true] at hdist
  obtain ⟨⟨h12, h13, h14⟩, ⟨h23, h24⟩, h34⟩ := hdist
  obtain ⟨h1, r1, hrun1, hch1, _, hfr1, _⟩ :=
    Op.run_index (.tail 5) fuel h a1 j1 none [] rfl hf1 (by simp)
  have hc1 : chain h1 r1 [5] = true := by simpa [insertAt, Op.index, Op.value] using hch1
  obtain ⟨h2, r2, hrun2, hch2, _, hfr2, _⟩ :=
    Op.run_index (.head 3) fuel h1 a2 j2 r1 [5] hc1 (hfr1 a2 (Ne.symm h12) hf2) (by simp; omega)
  have hc2 : chain h2 r2 [3, 5] = true := by simpa [insertAt, Op.index, Op.value] using hch2
  obtain ⟨h3, r3, hrun3, hch3, _, hfr3, _⟩ :=
    Op.run_index (.position 9 1) fuel h2 a3 j3 r2 [3, 5] hc2
      (hfr2 a3 (Ne.symm h23) (hfr1 a3 (Ne.symm h13) hf3)) (by simp; omega)
  have hc3 : chain h3 r3 [3, 9, 5] = true := by
    simpa [insertAt, Op.index, Op.value] using hch3
  obtain ⟨h4, r4, hrun4, hch4, _, _, _⟩ :=
    Op.run_index (.middle 7) fuel h3 a4 j4 r3 [3, 9, 5] hc3
      (hfr3 a4 (Ne.symm h34) (hfr2 a4 (Ne.symm h24) (hfr1 a4 (Ne.symm h14) hf4)))
      (by simp; omega)
  have hc4 : chain h4 r4 [3, 9, 7, 5] = true := by
    simpa [insertAt, Op.index, Op.value] using hch4
  exact ⟨h1, r1, h2, r2, h3, r3, h4, r4, hrun1, hc1, hrun2, hc2, hrun3, hc3, hrun4, hc4⟩

theorem worked_example_witness :
    ∃ h1 r1 h2 r2 h3 r3 h4 r4,
      addNodeTail 3 heap0 (.block 1 ⟨0, none⟩) none 5 = .ok (h1, r1) ∧
      chain h1 r1 [5] = true ∧
      addNodeHead h1 (.block 2 ⟨0, none⟩) r1 3 = .ok (h2, r2) ∧
      chain h2 r2 [3, 5] = true ∧
      addNodoInPosition 3 h2 (.block 3 ⟨0, none⟩) r2 9 1 = .ok (h3, r3) ∧
      chain h3 r3 [3, 9, 5] = true ∧
      addNodeMiddle 3 h3 (.block 4 ⟨0, none⟩) r3 7 = .ok (h4, r4) ∧
      chain h4 r4 [3, 9, 7, 5] = true :=
  worked_example 3 heap0 1 2 3 4 ⟨0, none⟩ ⟨0, none⟩ ⟨0, none⟩ ⟨0, none⟩
    ⟨rfl, rfl, rfl, rfl⟩ (by decide) (by decide)

/-- C12: a successful call on a heap holding the list `xs` ends without fault,
and (1) if `xs` is not empty and the call is `addNodeTail`, `addNodeMiddle`, or
`addNodoInPosition` with position at least 1, the pointer returned is the head
it was given, the first value of the list is the same, and the first node keeps
its `id`; (2) the pointer returned differs from the head given exactly when the
list was empty, or the call is `addNodeHead`, or it is `addNodoInPosition` with
position at most 0. -/
theorem head_pointer_kept (op : Op) (fuel : Nat) (h : Heap) (a : Nat) (junk : Node)
    (head : node_ptr) (xs : List Int)
    (hx : chain h head xs = true) (hfresh : h a = none) (hfuel : xs.length ≤ fuel) :
    ∃ h' r ys, op.run fuel h (.block a junk) head = .ok (h', r) ∧ chain h' r ys = true ∧
      (xs ≠ [] →
        ((∃ v, op = .tail v) ∨ (∃ v, op = .middle v) ∨ (∃ v p, op = .position v p ∧ 1 ≤ p)) →
        r = head ∧ ys.head? = xs.head? ∧
        ∀ b nb, head = some b → h b = some nb → ∃ nb', h' b = some nb' ∧ nb'.id = nb.id) ∧
      (r ≠ head ↔
        xs = [] ∨ (∃ v, op = .head v) ∨ (∃ v p, op = .position v p ∧ p ≤ 0)) := by
  obtain ⟨h', r, hrun, hch, hr, _, hids⟩ := Op.run_index op fuel h a junk head xs hx hfresh hfuel
  have hzero := Op.index_eq_zero_iff op xs.length
  rw [List.length_eq_zero] at hzero
  refine ⟨h', r, _, hrun, hch, ?_, ?_⟩
  · intro hne hop
    have hidx : op.index xs.length ≠ 0 := by
      intro h0
      rcases hzero.1 h0 with hnil | ⟨v, hv⟩ | ⟨v, p, hv, hp⟩
      · exact hne hnil
      · subst hv
        rcases hop with ⟨_, hw⟩ | ⟨_, hw⟩ | ⟨_, _, hw, _⟩ <;> cases hw
      · subst hv
        rcases hop with ⟨_, hw⟩ | ⟨_, hw⟩ | ⟨_, _, hw, hq⟩
        · cases hw
        · cases hw
        · cases hw
          omega
    refine ⟨by rw [hr, if_neg hidx], insertAt_head _ xs _ hidx hne, ?_⟩
    intro b nb _ hb
    exact hids b nb hb
  · rw [← hzero, hr]
    by_cases hidx : op.index xs.length = 0
    · simp only [hidx, if_true, iff_true]
      exact fresh_ne_head h a head xs hx hfresh
    · simp [hidx]

theorem head_pointer_kept_witness :
    chain heap3 (some 1) [10, 20, 30] = true ∧ heap3 5 = none ∧
    ∃ h' r ys, addNodoInPosition 3 heap3 (.block 5 ⟨99, some 77⟩) (some 1) 42 1 = .ok (h', r) ∧
      chain h' r ys = true ∧ r = some 1 ∧ ys.head? = some 10 := by
  refine ⟨by decide, by decide, ?_⟩
  obtain ⟨h', r, ys, hrun, hch, hkeep, _⟩ :=
    head_pointer_kept (.position 42 1) 3 heap3 5 ⟨99, some 77⟩ (some 1) [10, 20, 30]
      (by decide) (by decide) (by decide)
  obtain ⟨hr, hhd, _⟩ := hkeep (by simp) (Or.inr (Or.inr ⟨42, 1, rfl, by decide⟩))
  exact ⟨h', r, ys, hrun, hch, hr, by simpa using hhd⟩

/-- C14: every successful call of any of the four procedures on a heap holding
the list `xs` ends without fault and leaves `xs` with its value inserted at
some index `i ≤ length xs`: the new value sits at index `i`, and erasing index
`i` from the result gives back `xs` exactly. -/
theorem insertion_preserves_contents (op : Op) (fuel : Nat) (h : Heap) (a : Nat)
    (junk : Node) (head : node_ptr) (xs : List Int)
    (hx : chain h head xs = true) (hfresh : h a = none) (hfuel : xs.length ≤ fuel) :
    ∃ h' r i, op.run fuel h (.block a junk) head = .ok (h', r) ∧ i ≤ xs.length ∧
      chain h' r (xs.take i ++ op.value :: xs.drop i) = true ∧
      (xs.take i ++ op.value :: xs.drop i)[i]? = some op.value ∧
      (xs.take i ++ op.value :: xs.drop i).eraseIdx i = xs := by
  obtain ⟨h', r, hrun, hch, _⟩ := Op.run_index op fuel h a junk head xs hx hfresh hfuel
  have hi := Op.index_le op xs.length
  exact ⟨h', r, op.index xs.length, hrun, hi, hch, insertAt_getElem _ xs _ hi,
    insertAt_eraseIdx _ xs _ hi⟩

theorem insertion_preserves_contents_witness :
    chain heap3 (some 1) [10, 20, 30] = true ∧ heap3 5 = none ∧
    ∃ h' r i, addNodeMiddle 3 heap3 (.block 5 ⟨99, some 77⟩) (some 1) 42 = .ok (h', r) ∧
      i ≤ 3 ∧ chain h' r (([10, 20, 30] : List Int).take i ++ 42 :: [10, 20, 30].drop i) = true ∧
      (([10, 20, 30] : List Int).take i ++ 42 :: [10, 20, 30].drop i)[i]? = some 42 ∧
      (([10, 20, 30] : List Int).take i ++ 42 :: [10, 20, 30].drop i).eraseIdx i
        = [10, 20, 30] :=
  ⟨by decide, by decide,
    insertion_preserves_contents (.middle 42) 3 heap3 5 ⟨99, some 77⟩ (some 1) [10, 20, 30]
      (by decide) (by decide) (by decide)⟩

/-- C15: on a heap holding a list `xs` of length `n`, for every fresh `malloc`
outcome, `addNodeMiddle` ends without fault in exactly the heap and returned
pointer of `addNodoInPosition` with position `(n + 1) / 2`, the ceiling of
`n / 2`. -/
theorem addNodeMiddle_eq_position (fuel : Nat) (h : Heap) (m : Malloc)
    (head : node_ptr) (v : Int) (xs : List Int)
    (hx : chain h head xs = true) (hfresh : m.fresh h) (hfuel : xs.length ≤ fuel) :
    addNodeMiddle fuel h m head v =
        addNodoInPosition fuel h m head v (((xs.length + 1) / 2 : Nat) : Int) ∧
      (∃ s, addNodeMiddle fuel h m head v = .ok s) ∧
      xs.length ≤ 2 * ((xs.length + 1) / 2) ∧ 2 * ((xs.length + 1) / 2) ≤ xs.length + 1 := by
  refine ⟨?_, ?_, by omega, by omega⟩
  · cases m with
    | null => rfl
    | block a junk =>
      have hfresh2 : h a = none := hfresh
      cases xs with
      | nil =>
        rw [chain_nil_iff] at hx
        subst hx
        rw [addNodeMiddle_block_nil fuel h a junk v,
          addNodoInPosition_block_head fuel h a junk none v _ (Or.inl rfl)]
      | cons x xs =>
        obtain ⟨b, hb⟩ := chain_head_ptr h head _ hx (by simp)
        subst hb
        obtain ⟨c, nc, hadv, hc, hrun⟩ :=
          addNodeMiddle_block_cons fuel h a junk b v _ hx hfresh2 hfuel
        obtain ⟨c2, nc2, hadv2, hc2, hrun2⟩ :=
          addNodoInPosition_block_cons fuel h a junk b v
            ((((x :: xs).length + 1) / 2 : Nat) : Int) _ hx hfresh2 hfuel
            (by simp only [List.length_cons]; omega)
        have hk : min ((x :: xs).length - 1)
            (((((x :: xs).length + 1) / 2 : Nat) : Int) - 1).toNat
              = ((x :: xs).length - 1) / 2 := by
          simp only [List.length_cons]
          omega
        rw [hk, hadv] at hadv2
        have hcc : c = c2 := by simpa using hadv2
        subst hcc
        rw [hc] at hc2
        have hnn : nc = nc2 := by simpa using hc2
        subst hnn
        rw [hrun, hrun2]
  · cases m with
    | null => exact ⟨_, rfl⟩
    | block a junk =>
      obtain ⟨h', r, hrun, _⟩ :=
        Op.run_index (.middle v) fuel h a junk head xs hx hfresh hfuel
      exact ⟨_, hrun⟩

theorem addNodeMiddle_eq_position_witness :
    chain heap3 (some 1) [10, 20, 30] = true ∧ heap3 5 = none ∧
    addNodeMiddle 3 heap3 (.block 5 ⟨99, some 77⟩) (some 1) 42 =
      addNodoInPosition 3 heap3 (.block 5 ⟨99, some 77⟩) (some 1) 42 2 :=
  ⟨by decide, by decide,
    (addNodeMiddle_eq_position 3 heap3 (.block 5 ⟨99, some 77⟩) (some 1) 42 [10, 20, 30]
      (by decide) (by show heap3 5 = none; decide) (by decide)).1⟩

/-! ## Building a list call by call -/

/-- A run of successful calls from a heap holding `xs` ends without fault in a
heap holding `xs` with every value inserted, in order, at the index of its call. -/
theorem runAll_index (fuel : Nat) (calls : List (Op × Nat × Node)) :
    ∀ (h : Heap) (head : node_ptr) (xs : List Int), chain h head xs = true →
      (∀ c ∈ calls, h c.2.1 = none) → (calls.map fun c => c.2.1).Nodup →
      xs.length + calls.length ≤ fuel →
      ∃ h' r, runAll fuel h head (successful calls) = .ok (h', r) ∧
        chain h' r
          (calls.foldl (fun acc c => insertAt acc (c.1.index acc.length) c.1.value) xs)
            = true := by
  induction calls with
  | nil =>
    intro h head xs hx _ _ _
    exact ⟨h, head, rfl, hx⟩
  | cons call calls ih =>
    intro h head xs hx hfresh hnodup hfuel
    obtain ⟨op, a, junk⟩ := call
    simp only [List.map_cons, List.nodup_cons, List.length_cons] at hnodup hfuel
    obtain ⟨h1, r1, hrun, hch, _, hfr, _⟩ :=
      Op.run_index op fuel h a junk head xs hx (hfresh _ (List.mem_cons_self _ _)) (by omega)
    have hfresh1 : ∀ c ∈ calls, h1 c.2.1 = none := by
      intro c hc
      apply hfr
      · intro hca
        apply hnodup.1
        rw [← hca]
        exact List.mem_map_of_mem (fun c => c.2.1) hc
      · exact hfresh c (List.mem_cons_of_mem _ hc)
    obtain ⟨h2, r2, hrest, hch2⟩ :=
      ih h1 r1 (insertAt xs (op.index xs.length) op.value) hch hfresh1 hnodup.2
        (by rw [insertAt_length]; omega)
    refine ⟨h2, r2, ?_, ?_⟩
    · simp only [successful, List.map_cons, runAll, hrun]
      exact hrest
    · simpa only [List.foldl_cons] using hch2

theorem foldl_tail_calls (calls : List (Int × Nat × Node)) :
    ∀ xs : List Int,
      (calls.map fun c => (Op.tail c.1, c.2)).foldl
        (fun acc c => insertAt acc (c.1.index acc.length) c.1.value) xs
        = xs ++ calls.map fun c => c.1 := by
  induction calls with
  | nil => intro xs; simp
  | cons c calls ih =>
    intro xs
    simp only [List.map_cons, List.foldl_cons, ih]
    simp [insertAt, Op.index, Op.value]

theorem foldl_head_calls (calls : List (Int × Nat × Node)) :
    ∀ xs : List Int,
      (calls.map fun c => (Op.head c.1, c.2)).foldl
        (fun acc c => insertAt acc (c.1.index acc.length) c.1.value) xs
        = (calls.map fun c => c.1).reverse ++ xs := by
  induction calls with
  | nil => intro xs; simp
  | cons c calls ih =>
    intro xs
    simp only [List.map_cons, List.foldl_cons, ih]
    simp [insertAt, Op.index, Op.value]

/-- C17: from the empty list, calling `addNodeTail` once per value of a finite
sequence, in order (every allocation succeeding, at fresh distinct addresses),
ends without fault with exactly that sequence in the heap; calling
`addNodeHead` instead ends with the reverse of the sequence.  So the head-built
list is the reverse of the tail-built list. -/
theorem build_by_tail_and_by_head (fuel : Nat) (h : Heap) (calls : List (Int × Nat × Node))
    (hfresh : ∀ c ∈ calls, h c.2.1 = none) (hnodup : (calls.map fun c => c.2.1).Nodup)
    (hfuel : calls.length ≤ fuel) :
    ∃ ht rt hh rh ts hs,
      runAll fuel h none (successful (calls.map fun c => (Op.tail c.1, c.2))) = .ok (ht, rt) ∧
      chain ht rt ts = true ∧ ts = calls.map (fun c => c.1) ∧
      runAll fuel h none (successful (calls.map fun c => (Op.head c.1, c.2))) = .ok (hh, rh) ∧
      chain hh rh hs = true ∧ hs = (calls.map fun c => c.1).reverse ∧
      hs = ts.reverse := by
  have haddr : ∀ f : Int → Op,
      ((calls.map fun c => (f c.1, c.2)).map fun c => c.2.1) = calls.map fun c => c.2.1 := by
    intro f
    simp [List.map_map, Function.comp_def]
  have hfr : ∀ f : Int → Op, ∀ c ∈ calls.map (fun c => (f c.1, c.2)), h c.2.1 = none := by
    intro f c hc
    obtain ⟨d, hd, rfl⟩ := List.mem_map.1 hc
    exact hfresh d hd
  obtain ⟨ht, rt, hrunt, hcht⟩ :=
    runAll_index fuel (calls.map fun c => (Op.tail c.1, c.2)) h none [] rfl (hfr Op.tail)
      (by rw [haddr Op.tail]; exact hnodup) (by simpa using hfuel)
  obtain ⟨hh, rh, hrunh, hchh⟩ :=
    runAll_index fuel (calls.map fun c => (Op.head c.1, c.2)) h none [] rfl (hfr Op.head)
      (by rw [haddr Op.head]; exact hnodup) (by simpa using hfuel)
  rw [foldl_tail_calls calls []] at hcht
  rw [foldl_head_calls calls []] at hchh
  exact ⟨ht, rt, hh, rh, _, _, hrunt, by simpa using hcht, rfl, hrunh,
    by simpa using hchh, rfl, rfl⟩

theorem build_by_tail_and_by_head_witness :
    ∃ ht rt hh rh ts hs,
      runAll 3 heap0 none
        (successful [(.tail 7, 1, ⟨0, none⟩), (.tail 8, 2, ⟨0, none⟩), (.tail 9, 3, ⟨0, none⟩)])
          = .ok (ht, rt) ∧
      chain ht rt ts = true ∧ ts = [7, 8, 9] ∧
      runAll 3 heap0 none
        (successful [(.head 7, 1, ⟨0, none⟩), (.head 8, 2, ⟨0, none⟩), (.head 9, 3, ⟨0, none⟩)])
          = .ok (hh, rh) ∧
      chain hh rh hs = true ∧ hs = [9, 8, 7] ∧ hs = ts.reverse :=
  build_by_tail_and_by_head 3 heap0 [(7, 1, ⟨0, none⟩), (8, 2, ⟨0, none⟩), (9, 3, ⟨0, none⟩)]
    (by intro c _; rfl) (by decide) (by decide)

/-! ## The debug dump -/

theorem addresses_getElem (h : Heap) (xs : List Int) :
    ∀ (p : node_ptr), chain h p xs = true →
      ∀ j, (addresses h xs.length p)[j]? = advance h j p := by
  induction xs with
  | nil =>
    intro p hx j
    rw [chain_nil_iff] at hx
    subst hx
    cases j <;> simp [addresses, advance]
  | cons x xs ih =>
    intro p hx j
    obtain ⟨b, nb, hp, hcell, hrest⟩ := (chain_cons_iff h p x xs).1 hx
    subst hp
    cases j with
    | zero => simp [addresses, advance, hcell]
    | succ j =>
      simp only [List.length_cons, addresses, hcell, List.getElem?_cons_succ, advance]
      exact ih nb hrest j

/-- The counter of the dump past `INT_MAX`: entered with `idx = INT_MAX`, which
is the state of the loop after `INT_MAX` nodes, the loop numbers the next node
`INT_MAX` and the one after it `-2147483648`. -/
theorem debugListLoop_wraps :
    debugListLoop 3 heap3 [] (some 2) INT_MAX =
      .ok ([.nodeIndex 2147483647, .nodeAt 2 20 (some 3), .nodeIndex (-2147483648),
        .nodeAt 3 30 none], -2147483647) := by
  rfl

/-! ## The pointers of the three loops -/

theorem advance_succ_cell (h : Heap) (a : Nat) (n : Node) (j : Nat) (hc : h a = some n) :
    advance h (j + 1) (some a) = advance h j n.next := by
  simp [advance, hc]

/-- Inside a chain every pointer reached is the address of an allocated node. -/
theorem advance_valid (h : Heap) (p : node_ptr) (xs : List Int) (j : Nat)
    (hx : chain h p xs = true) (hj : j < xs.length) : validPtr h (advance h j p) = true := by
  obtain ⟨c, nc, hadv, hc, _⟩ := advance_cell h j p xs hx hj
  simp [validPtr, hadv, hc]

/-- Past the end of a chain the pointer reached is `NULL`. -/
theorem advance_end (h : Heap) (p : node_ptr) (xs : List Int) (j : Nat)
    (hx : chain h p xs = true) (hj : xs.length ≤ j) : advance h j p = none := by
  rw [← addresses_getElem h xs p hx j, List.getElem?_eq_none_iff, addresses_length h xs p hx]
  exact hj

theorem tailTrace_spec (h : Heap) (xs : List Int) :
    ∀ (fuel : Nat) (p : node_ptr), chain h p xs = true → xs ≠ [] → xs.length ≤ fuel →
      tailTrace fuel h p = .ok ((List.range xs.length).map fun j => advance h j p) := by
  induction xs with
  | nil => intro _ _ _ hne; exact absurd rfl hne
  | cons x xs ih =>
    intro fuel p hx _ hfuel
    obtain ⟨b, nb, hp, hcell, hrest⟩ := (chain_cons_iff h p x xs).1 hx
    subst hp
    cases fuel with
    | zero => simp at hfuel
    | succ fuel =>
      simp only [List.length_cons] at hfuel
      have hmap : (List.range (xs.length + 1)).map (fun j => advance h j (some b))
          = some b :: (List.range xs.length).map fun j => advance h j nb := by
        rw [List.range_succ_eq_map, List.map_cons, List.map_map]
        refine congrArg₂ _ rfl (List.map_congr_left fun j _ => ?_)
        exact advance_succ_cell h b _ j hcell
      rw [List.length_cons, hmap]
      cases xs with
      | nil =>
        rw [chain_nil_iff] at hrest
        subst hrest
        simp [tailTrace, load_cell h b _ hcell, bind, Except.bind, pure, Except.pure]
      | cons y ys =>
        obtain ⟨b2, nb2, hp2, _, _⟩ := (chain_cons_iff h nb y ys).1 hrest
        subst hp2
        have hrec := ih fuel (some b2) hrest (by simp) (by omega)
        simp [tailTrace, load_cell h b _ hcell, bind, Except.bind, hrec, pure, Except.pure]

theorem middleTrace_spec (h : Heap) :
    ∀ (fuel : Nat) (slow fast : node_ptr) (ss fs : List Int),
      chain h slow ss = true → chain h fast fs = true → fs ≠ [] →
      fs.length ≤ ss.length → fs.length ≤ fuel →
      middleTrace fuel h slow fast =
        .ok ((List.range ((fs.length - 1) / 2 + 1)).map fun j =>
          (advance h j slow, advance h (2 * j) fast)) := by
  intro fuel
  induction fuel with
  | zero =>
    intro slow fast ss fs _ _ hne _ hfuel
    cases fs with
    | nil => exact absurd rfl hne
    | cons x fs => simp at hfuel
  | succ fuel ih =>
    intro slow fast ss fs hs hf hne hlen hfuel
    cases fs with
    | nil => exact absurd rfl hne
    | cons x fs1 =>
      obtain ⟨b, nb, hp, hcell, hrest⟩ := (chain_cons_iff h fast x fs1).1 hf
      subst hp
      cases fs1 with
      | nil =>
        rw [chain_nil_iff] at hrest
        subst hrest
        simp [middleTrace, load_cell h b _ hcell, advance, bind, Except.bind, pure, Except.pure,
          List.range_succ]
      | cons y fs2 =>
        obtain ⟨b1, nb1, hp1, hcell1, hrest1⟩ := (chain_cons_iff h nb y fs2).1 hrest
        subst hp1
        cases fs2 with
        | nil =>
          rw [chain_nil_iff] at hrest1
          subst hrest1
          simp [middleTrace, load_cell h b _ hcell, load_cell h b1 _ hcell1, advance, bind,
            Except.bind, pure, Except.pure, List.range_succ]
        | cons z fs3 =>
          obtain ⟨b2, nb2, hp2, hcell2, hrest2⟩ := (chain_cons_iff h nb1 z fs3).1 hrest1
          subst hp2
          cases ss with
          | nil => simp at hlen
          | cons s ss1 =>
            obtain ⟨d, nd, hpd, hcelld, hrestd⟩ := (chain_cons_iff h slow s ss1).1 hs
            subst hpd
            simp only [List.length_cons] at hlen hfuel
            have hrec := ih nd (some b2) ss1 (z :: fs3) hrestd hrest1 (by simp)
              (by simp only [List.length_cons]; omega) (by simp only [List.length_cons]; omega)
            have hk : (fs3.length + 1 + 1 + 1 - 1) / 2 + 1 = ((fs3.length + 1 - 1) / 2 + 1) + 1 := by
              omega
            simp only [List.length_cons] at hrec ⊢
            rw [hk, List.range_succ_eq_map, List.map_cons, List.map_map]
            have hmap : List.map
                ((fun j => (advance h j (some d), advance h (2 * j) (some b))) ∘ Nat.succ)
                (List.range ((fs3.length + 1 - 1) / 2 + 1))
                = List.map (fun j => (advance h j nd, advance h (2 * j) (some b2)))
                  (List.range ((fs3.length + 1 - 1) / 2 + 1)) := by
              refine List.map_congr_left fun j _ => ?_
              have h2 : 2 * (j + 1) = 2 * j + 1 + 1 := by omega
              simp only [Function.comp, Nat.succ_eq_add_one, h2,
                advance_succ_cell h d _ j hcelld, advance_succ_cell h b _ (2 * j + 1) hcell,
                advance_succ_cell h b1 _ (2 * j) hcell1]
            rw [hmap]
            simp [middleTrace, load_cell h b _ hcell, load_cell h b1 _ hcell1,
              load_cell h d _ hcelld, bind, Except.bind, hrec, advance, pure, Except.pure]

theorem positionTrace_spec (h : Heap) (position : Int) (cs : List Int) :
    ∀ (fuel : Nat) (current : node_ptr) (index : Int),
      chain h current cs = true → cs ≠ [] → cs.length ≤ fuel →
      positionTrace fuel h current index position =
        .ok ((List.range (min (cs.length - 1) (position - 1 - index).toNat + 1)).map
          fun j => advance h j current) := by
  induction cs with
  | nil => intro _ _ _ _ hne; exact absurd rfl hne
  | cons x cs ih =>
    intro fuel current index hx _ hfuel
    obtain ⟨b, nb, hp, hcell, hrest⟩ := (chain_cons_iff h current x cs).1 hx
    subst hp
    cases fuel with
    | zero => simp at hfuel
    | succ fuel =>
      simp only [List.length_cons] at hfuel
      cases cs with
      | nil =>
        rw [chain_nil_iff] at hrest
        subst hrest
        simp [positionTrace, load_cell h b _ hcell, advance, bind, Except.bind, pure,
          Except.pure, List.range_succ]
      | cons y ys =>
        obtain ⟨b2, nb2, hp2, _, _⟩ := (chain_cons_iff h nb y ys).1 hrest
        subst hp2
        have hrec := ih fuel (some b2) (index + 1) hrest (by simp) (by omega)
        by_cases hlt : index < position - 1
        · have hk : min ((x :: y :: ys).length - 1) (position - 1 - index).toNat + 1
              = (min ((y :: ys).length - 1) (position - 1 - (index + 1)).toNat + 1) + 1 := by
            simp only [List.length_cons]
            omega
          rw [hk, List.range_succ_eq_map, List.map_cons, List.map_map]
          have hmap : List.map ((fun j => advance h j (some b)) ∘ Nat.succ)
              (List.range (min ((y :: ys).length - 1) (position - 1 - (index + 1)).toNat + 1))
              = List.map (fun j => advance h j (some b2))
                (List.range
                  (min ((y :: ys).length - 1) (position - 1 - (index + 1)).toNat + 1)) := by
            refine List.map_congr_left fun j _ => ?_
            simp only [Function.comp, Nat.succ_eq_add_one, advance_succ_cell h b _ j hcell]
          rw [hmap]
          simp [positionTrace, load_cell h b _ hcell, bind, Except.bind, hlt, hrec, advance,
            pure, Except.pure]
        · have hk : min ((x :: y :: ys).length - 1) (position - 1 - index).toNat = 0 := by
            simp only [List.length_cons]
            omega
          rw [hk]
          simp [positionTrace, load_cell h b _ hcell, bind, Except.bind, hlt, advance, pure,
            Except.pure, List.range_succ]

/-- C16: let `h` hold a non-empty list `xs` of `n` nodes when a loop is entered
(with enough fuel).  The slow/fast loop of `addNodeMiddle` ends without fault
after `(n - 1) / 2` iterations; at the `j`-th evaluation of its condition `slow`
is the node at index `j` and `fast` the node at index `2 * j`, both allocated,
and `fast->next`, when not `NULL`, is an allocated node too.  The loop of
`addNodeTail` ends without fault with `current` at index `j` after `j`
iterations, for `j < n`, and so does the loop of `addNodoInPosition`, for
`j ≤ min (n - 1) (p - 1)`; `current` is always an allocated node.  Hence the
three procedures end without fault after a successful allocation. -/
theorem loops_never_fault (fuel : Nat) (h : Heap) (head : node_ptr) (xs : List Int) (p : Int)
    (hx : chain h head xs = true) (hne : xs ≠ []) (hfuel : xs.length ≤ fuel) :
    (middleTrace fuel h head head =
        .ok ((List.range ((xs.length - 1) / 2 + 1)).map fun j =>
          (advance h j head, advance h (2 * j) head)) ∧
      middleLoop fuel h head head =
        .ok (advance h ((xs.length - 1) / 2) head, advance h (2 * ((xs.length - 1) / 2)) head) ∧
      ∀ j, j ≤ (xs.length - 1) / 2 →
        validPtr h (advance h j head) = true ∧ validPtr h (advance h (2 * j) head) = true ∧
        (advance h (2 * j + 1) head ≠ none →
          validPtr h (advance h (2 * j + 1) head) = true)) ∧
    (tailTrace fuel h head = .ok ((List.range xs.length).map fun j => advance h j head) ∧
      tailLoop fuel h head = .ok (advance h (xs.length - 1) head) ∧
      ∀ j, j < xs.length → validPtr h (advance h j head) = true) ∧
    (positionTrace fuel h head 0 p =
        .ok ((List.range (min (xs.length - 1) (p - 1).toNat + 1)).map
          fun j => advance h j head) ∧
      positionLoop fuel h head 0 p =
        .ok (advance h (min (xs.length - 1) (p - 1).toNat) head) ∧
      ∀ j, j ≤ min (xs.length - 1) (p - 1).toNat → validPtr h (advance h j head) = true) ∧
    (∀ (a : Nat) (junk : Node) (v : Int), h a = none →
      (∃ s, addNodeMiddle fuel h (.block a junk) head v = .ok s) ∧
      (∃ s, addNodeTail fuel h (.block a junk) head v = .ok s) ∧
      (∃ s, addNodoInPosition fuel h (.block a junk) head v p = .ok s)) := by
  have hpos : 0 < xs.length := List.length_pos.2 hne
  refine ⟨⟨?_, ?_, ?_⟩, ⟨?_, ?_, ?_⟩, ⟨?_, ?_, ?_⟩, ?_⟩
  · exact middleTrace_spec h fuel head head xs xs hx hx hne (le_refl _) hfuel
  · exact middleLoop_spec h fuel head head xs xs hx hx hne (le_refl _) hfuel
  · intro j hj
    refine ⟨advance_valid h head xs j hx (by omega),
      advance_valid h head xs (2 * j) hx (by omega), ?_⟩
    intro hnn
    by_cases hlt : 2 * j + 1 < xs.length
    · exact advance_valid h head xs _ hx hlt
    · exact absurd (advance_end h head xs _ hx (by omega)) hnn
  · exact tailTrace_spec h xs fuel head hx hne hfuel
  · exact tailLoop_spec h xs fuel head hx hne hfuel
  · intro j hj
    exact advance_valid h head xs j hx hj
  · have := positionTrace_spec h p xs fuel head 0 hx hne hfuel
    rw [sub_zero] at this
    exact this
  · have := positionLoop_spec h p xs fuel head 0 hx hne hfuel
    rw [sub_zero] at this
    exact this
  · intro j hj
    exact advance_valid h head xs j hx (by omega)
  · intro a junk v hfresh
    obtain ⟨h1, r1, hrun1, _⟩ := Op.run_index (.middle v) fuel h a junk head xs hx hfresh hfuel
    obtain ⟨h2, r2, hrun2, _⟩ := Op.run_index (.tail v) fuel h a junk head xs hx hfresh hfuel
    obtain ⟨h3, r3, hrun3, _⟩ :=
      Op.run_index (.position v p) fuel h a junk head xs hx hfresh hfuel
    exact ⟨⟨_, hrun1⟩, ⟨_, hrun2⟩, ⟨_, hrun3⟩⟩

theorem loops_never_fault_witness :
    chain heap3 (some 1) [10, 20, 30] = true ∧
    middleTrace 3 heap3 (some 1) (some 1) = .ok [(some 1, some 1), (some 2, some 3)] ∧
    tailTrace 3 heap3 (some 1) = .ok [some 1, some 2, some 3] ∧
    positionTrace 3 heap3 (some 1) 0 2 = .ok [some 1, some 2] := by
  obtain ⟨⟨hm, _, _⟩, ⟨ht, _, _⟩, ⟨hp, _, _⟩, _⟩ :=
    loops_never_fault 3 heap3 (some 1) [10, 20, 30] 2 (by decide) (by simp) (by decide)
  exact ⟨by decide, hm, ht, hp⟩

end LLL
